import Mathlib

/-!
# Verification of the `intern` string-interning table

Shallow embedding of the two implementations found in the repository:

* the *flat* implementation, whose arena is a single growable `[]string`
  slice (`strings []string`), and
* the *chunked* implementation, whose arena is a list of fixed-size
  `*[1024]string` chunks (`strings []*[1024]string`) together with a
  `count` field and a cached growth `threshold`.

Modelling conventions:

* Go's `IndexType = int32` identifiers and `int` counters are modelled by
  `Nat`/`Int`; the spec declares behaviour beyond `2^31` distinct strings
  out of scope, so 32/64-bit wraparound is not modelled.
* The murmur3 hash (an external library, `github.com/spaolacci/murmur3`)
  is modelled by an arbitrary per-table function `hashFn : String → Nat`;
  `genhash` reduces it modulo `2 ^ 32`, matching the `uint32` sum.  The
  code only relies on the hash being a deterministic pure function of the
  string, which holds because `genhash` calls `Reset` before `Write`.
* `float64` load-factor arithmetic is modelled exactly over `ℚ`:
  Go's `int(loadFactor * float64(cap))` (truncation toward zero) becomes
  `goThreshold`, computed with `Int.tdiv`.
* A Go runtime panic (the explicit `panic("out of space!")` as well as a
  slice bounds fault) is modelled by returning `none`; `IndexToString`
  returns `Option String` with `none` for a bounds fault.
-/

/-- Slot of the open-addressing bucket table (`entry` in intern.go):
the cached 32-bit hash and the identifier + 1, with 0 meaning empty. -/
structure Entry where
  hash : Nat
  index : Nat
deriving DecidableEq, Repr

/-- Number of binary digits of `n`, via explicit fuel so that it reduces
by `rfl`/`decide`.  `bitLen n = 64 - bits.LeadingZeros(uint(n))` for the
64-bit values in scope. -/
def bitLenAux : Nat → Nat → Nat
  | 0, _ => 0
  | fuel + 1, n => if n = 0 then 0 else bitLenAux fuel (n / 2) + 1

def bitLen (n : Nat) : Nat := bitLenAux n n

/-- Capacity rounding performed by both `New` functions:
`if cap < 16 { cap = 16 } else { cap = 1 << uint(64-bits.LeadingZeros(uint(cap-1))) }`.
`64 - bits.LeadingZeros(x) = bitLen x`, so the else branch is `2 ^ bitLen (cap-1)`.
(The Go shift would wrap for requests above `2^63`; such capacities are far
beyond any allocatable size and are not modelled.) -/
def roundCap (cap : Int) : Nat :=
  if cap < 16 then 16 else 2 ^ bitLen (cap - 1).toNat

/-- Go's `int(loadFactor * float64(cap))`: exact rational multiplication
followed by truncation toward zero (`lf * cap = (lf.num * cap) / lf.den`
with `lf.den > 0`). -/
def goThreshold (lf : ℚ) (cap : Nat) : Int := Int.tdiv (lf.num * cap) lf.den

/-- The `uint32` hash produced by `genhash` (murmur3 abstracted as
`hashFn`). -/
def genhash (hashFn : String → Nat) (val : String) : Nat := hashFn val % 2 ^ 32

/-- Outcome of the linear-probe loop shared by both `StringToIndex`
implementations: an existing identifier was found; an empty slot was
reached (with the clash count accumulated on the way); or the operation
panics (a full wrap back to `start`, i.e. "out of space!", or a bounds
fault inside the arena lookup). -/
inductive Probe where
  | hit (id : Nat) (clashes : Nat)
  | empty (cursor : Nat) (clashes : Nat)
  | fault
deriving Repr

/-- The probe loop of `StringToIndex`.  `look` is the arena lookup used
for the clash comparison (`i.IndexToString(e.index - 1) == val`).  The
fuel starts at `entries.size`: the Go loop panics exactly when `cursor`
comes back to `start`, i.e. after `entries.size` occupied, non-matching
slots. -/
def probeLoop (entries : Array Entry) (look : Nat → Option String)
    (hashVal : Nat) (val : String) : Nat → Nat → Nat → Probe
  | _cursor, _clashes, 0 => .fault
  | cursor, clashes, fuel + 1 =>
    match entries[cursor]? with
    | none => .fault
    | some e =>
      if e.index = 0 then .empty cursor clashes
      else if e.hash = hashVal then
        match look (e.index - 1) with
        | none => .fault
        | some s =>
          if s = val then .hit (e.index - 1) clashes
          else probeLoop entries look hashVal val ((cursor + 1) % entries.size)
            (clashes + 1) fuel
      else probeLoop entries look hashVal val ((cursor + 1) % entries.size)
        (clashes + 1) fuel

/-- The re-insertion loop inside `resize`: starting at the slot selected
by the new mask, advance to the first empty slot and store the old entry
there.  The Go loop has no exit check; with fuel `numEntries` it covers
every slot, which is enough because the doubled table always has empty
slots. -/
def rehashLoop (entries : Array Entry) (cursor : Nat) (e : Entry) : Nat → Array Entry
  | 0 => entries
  | fuel + 1 =>
    match entries[cursor]? with
    | none => entries
    | some cur =>
      if cur.index = 0 then entries.setD cursor e
      else rehashLoop entries ((cursor + 1) % entries.size) e fuel

/-- The body of `resize` shared by both implementations: allocate a slot
array twice as large and re-insert every occupied old slot, probing from
`int(e.hash) & (numEntries - 1)`. -/
def growEntries (oldEntries : Array Entry) : Array Entry :=
  let numEntries := 2 * oldEntries.size
  oldEntries.toList.foldl
    (fun acc e =>
      if e.index = 0 then acc
      else rehashLoop acc (e.hash &&& (numEntries - 1)) e numEntries)
    (Array.mkArray numEntries ⟨0, 0⟩)

/-- Cyclic distance from slot `a` to slot `b` in a table of `n` slots:
the number of forward steps a linear probe starting at `a` needs to
reach `b`. -/
def cdist (n a b : Nat) : Nat := (b + n - a) % n

/-- Total accessor for a slot: the entry at `c`, or the zero entry when
`c` is out of range (used only in specifications and proofs). -/
def entAt (entries : Array Entry) (c : Nat) : Entry := (entries[c]?).getD ⟨0, 0⟩

namespace Flat

/-- The flat implementation's `Intern` struct.  The `strings []string`
slice is modelled as a `List String` (append-only, indexed from 0);
`hash hash.Hash32` is the abstracted murmur3 hasher. -/
structure Intern where
  clashes : Nat
  entries : Array Entry
  strings : List String
  loadFactor : ℚ
  hashFn : String → Nat

/-- `New(cap, loadFactor)` of the flat implementation. -/
def New (cap : Int) (loadFactor : ℚ) (hashFn : String → Nat) : Intern :=
  { clashes := 0
    entries := Array.mkArray (roundCap cap) ⟨0, 0⟩
    strings := []
    loadFactor := loadFactor
    hashFn := hashFn }

def Intern.Clashes (t : Intern) : Nat := t.clashes

/-- `Cap` returns the number of strings that could be stored: `len(i.entries)`. -/
def Intern.Cap (t : Intern) : Nat := t.entries.size

/-- `Len` returns the number of strings stored: `len(i.strings)`. -/
def Intern.Len (t : Intern) : Nat := t.strings.length

/-- `IndexToString` is `i.strings[index]`: a Go slice index with a bounds
check, so a negative or too-large index faults (`none`). -/
def Intern.IndexToString (t : Intern) (index : Int) : Option String :=
  if 0 ≤ index then t.strings[index.toNat]? else none

/-- `resize` of the flat implementation: grow when
`len(i.strings) >= int(i.loadFactor * float64(len(i.entries)))`. -/
def Intern.resize (t : Intern) : Intern :=
  if (t.strings.length : Int) < goThreshold t.loadFactor t.entries.size then t
  else { t with entries := growEntries t.entries }

/-- `StringToIndex` of the flat implementation.  Returns `none` when the
Go code would panic. -/
def Intern.StringToIndex (t : Intern) (val : String) : Option (Nat × Intern) :=
  let t := t.resize
  let hashVal := genhash t.hashFn val
  let cursor := hashVal &&& (t.entries.size - 1)
  match probeLoop t.entries (fun n => t.IndexToString n) hashVal val
      cursor 0 t.entries.size with
  | .fault => none
  | .hit id cl => some (id, { t with clashes := t.clashes + cl })
  | .empty cursor cl =>
    let strings := t.strings ++ [val]
    let index := strings.length
    some (index - 1,
      { t with
        clashes := t.clashes + cl
        strings := strings
        entries := t.entries.setD cursor ⟨hashVal, index⟩ })

/-- Folding `StringToIndex` over a list of strings, collecting the
returned identifiers (used to state the sequence-level claims). -/
def insertAll (t : Intern) (vals : List String) : Option (List Nat × Intern) :=
  match vals with
  | [] => some ([], t)
  | v :: rest =>
    match t.StringToIndex v with
    | none => none
    | some (id, t') =>
      match insertAll t' rest with
      | none => none
      | some (ids, t'') => some (id :: ids, t'')

end Flat

namespace Chunked

/-- The chunked implementation's `Intern` struct.  `strings []*[1024]string`
is a list of 1024-slot chunks (each chunk an `Array String` of size 1024,
zero value `""`); `count` is the number of stored strings and `threshold`
the cached growth threshold. -/
structure Intern where
  clashes : Nat
  entries : Array Entry
  strings : List (Array String)
  count : Nat
  threshold : Int
  loadFactor : ℚ
  hashFn : String → Nat

/-- `New(cap, loadFactor)` of the chunked implementation. -/
def New (cap : Int) (loadFactor : ℚ) (hashFn : String → Nat) : Intern :=
  { clashes := 0
    entries := Array.mkArray (roundCap cap) ⟨0, 0⟩
    strings := []
    count := 0
    threshold := goThreshold loadFactor (roundCap cap)
    loadFactor := loadFactor
    hashFn := hashFn }

def Intern.Clashes (t : Intern) : Nat := t.clashes

/-- `Cap` returns `len(i.entries)`. -/
def Intern.Cap (t : Intern) : Nat := t.entries.size

/-- `Len` returns `len(i.strings)` — in this implementation `i.strings`
is the list of 1024-string chunks, so this is the number of chunks, not
the number of stored strings (`i.count`). -/
def Intern.Len (t : Intern) : Nat := t.strings.length

/-- `IndexToString` is `i.strings[index/1024][index&1023]`.
`index / 1024` is Go's `int32` division (truncation toward zero, hence
`Int.tdiv`) and `index & 1023` keeps the low 10 bits of the two's
complement representation, which is the nonnegative remainder
`Int.emod index 1024`.  Only the outer chunk access `i.strings[j]` is
bounds-checked at runtime; the inner `[1024]string` access cannot fault
because `index & 1023 < 1024`. -/
def Intern.IndexToString (t : Intern) (index : Int) : Option String :=
  let j := Int.tdiv index 1024
  let k := (Int.emod index 1024).toNat
  if 0 ≤ j then (t.strings[j.toNat]?).map (fun chunk => chunk.getD k "") else none

/-- `resize` of the chunked implementation: grow when
`i.count >= i.threshold`, doubling the slot array and re-caching
`threshold = int(float64(numEntries) * loadFactor)`. -/
def Intern.resize (t : Intern) : Intern :=
  if (t.count : Int) < t.threshold then t
  else
    { t with
      entries := growEntries t.entries
      threshold := goThreshold t.loadFactor (2 * t.entries.size) }

/-- `StringToIndex` of the chunked implementation.  On a miss the new
string is stored at chunk `index/1024`, offset `index&1023`, appending a
fresh zero-filled chunk when the offset is 0.  Returns `none` when the
Go code would panic. -/
def Intern.StringToIndex (t : Intern) (val : String) : Option (Nat × Intern) :=
  let t := t.resize
  let hashVal := genhash t.hashFn val
  let cursor := hashVal &&& (t.entries.size - 1)
  match probeLoop t.entries (fun n => t.IndexToString n) hashVal val
      cursor 0 t.entries.size with
  | .fault => none
  | .hit id cl => some (id, { t with clashes := t.clashes + cl })
  | .empty cursor cl =>
    let index := t.count
    let j := index / 1024
    let k := index % 1024
    let strings := if k = 0 then t.strings ++ [Array.mkArray 1024 ""] else t.strings
    match strings[j]? with
    | none => none
    | some chunk =>
      some (index,
        { t with
          clashes := t.clashes + cl
          count := t.count + 1
          strings := strings.set j (chunk.setD k val)
          entries := t.entries.setD cursor ⟨hashVal, index + 1⟩ })

/-- Folding `StringToIndex` over a list of strings, collecting the
returned identifiers. -/
def insertAll (t : Intern) (vals : List String) : Option (List Nat × Intern) :=
  match vals with
  | [] => some ([], t)
  | v :: rest =>
    match t.StringToIndex v with
    | none => none
    | some (id, t') =>
      match insertAll t' rest with
      | none => none
      | some (ids, t'') => some (id :: ids, t'')

end Chunked

/-! ## Arithmetic facts about `bitLen`, `roundCap`, `goThreshold`, `cdist` -/

theorem bitLenAux_zero (fuel : Nat) : bitLenAux fuel 0 = 0 := by
  cases fuel <;> simp [bitLenAux]

theorem bitLenAux_succ (fuel n : Nat) (h0 : n ≠ 0) :
    bitLenAux (fuel + 1) n = bitLenAux fuel (n / 2) + 1 := by
  simp [bitLenAux, h0]

theorem bitLenAux_lt (fuel : Nat) : ∀ n, n ≤ fuel → n < 2 ^ bitLenAux fuel n := by
  induction fuel with
  | zero => intro n hn; interval_cases n; simp [bitLenAux]
  | succ fuel ih =>
    intro n hn
    by_cases h0 : n = 0
    · subst h0; simp [bitLenAux]
    · have ih2 := ih (n / 2) (by omega)
      have hp : 2 ^ (bitLenAux fuel (n / 2) + 1) = 2 * 2 ^ bitLenAux fuel (n / 2) := by
        rw [pow_succ]; ring
      rw [bitLenAux_succ fuel n h0, hp]
      omega

theorem bitLenAux_pos (fuel n : Nat) (hn : 1 ≤ n) (hf : 1 ≤ fuel) :
    1 ≤ bitLenAux fuel n := by
  cases fuel with
  | zero => omega
  | succ fuel =>
    rw [bitLenAux_succ fuel n (by omega)]
    omega

theorem bitLenAux_ge (fuel : Nat) : ∀ n, n ≤ fuel → 1 ≤ n →
    2 ^ (bitLenAux fuel n - 1) ≤ n := by
  induction fuel with
  | zero => intro n hn h1; omega
  | succ fuel ih =>
    intro n hn h1
    rw [bitLenAux_succ fuel n (by omega)]
    by_cases h2 : n / 2 = 0
    · rw [h2, bitLenAux_zero]; simpa using h1
    · have ihalf := ih (n / 2) (by omega) (by omega)
      have hpos := bitLenAux_pos fuel (n / 2) (by omega) (by omega)
      have hp : 2 ^ (bitLenAux fuel (n / 2) + 1 - 1) = 2 * 2 ^ (bitLenAux fuel (n / 2) - 1) := by
        rw [show bitLenAux fuel (n / 2) + 1 - 1 = (bitLenAux fuel (n / 2) - 1) + 1 by omega,
          pow_succ]
        ring
      rw [hp]
      omega

theorem bitLen_lt (n : Nat) : n < 2 ^ bitLen n := bitLenAux_lt n n le_rfl

theorem bitLen_ge (n : Nat) (h : 1 ≤ n) : 2 ^ (bitLen n - 1) ≤ n :=
  bitLenAux_ge n n le_rfl h

theorem bitLen_pos (n : Nat) (h : 1 ≤ n) : 1 ≤ bitLen n :=
  bitLenAux_pos n n h h

theorem roundCap_pos (cap : Int) : 0 < roundCap cap := by
  unfold roundCap; split <;> positivity

theorem roundCap_pow2 (cap : Int) : ∃ k, roundCap cap = 2 ^ k := by
  unfold roundCap; split
  · exact ⟨4, rfl⟩
  · exact ⟨_, rfl⟩

theorem roundCap_of_lt (cap : Int) (h : cap < 16) : roundCap cap = 16 := by
  simp [roundCap, h]

theorem roundCap_ge_self (cap : Int) (h : 16 ≤ cap) :
    cap ≤ (roundCap cap : Int) ∧ (roundCap cap : Int) < 2 * cap := by
  have hns : ¬ cap < 16 := by omega
  have hm : ((cap - 1).toNat : Int) = cap - 1 := Int.toNat_of_nonneg (by omega)
  have h1 : 1 ≤ (cap - 1).toNat := by omega
  have hlt := bitLen_lt (cap - 1).toNat
  have hge := bitLen_ge (cap - 1).toNat h1
  have hpos := bitLen_pos (cap - 1).toNat h1
  have h2 : (2 : Nat) ^ bitLen (cap - 1).toNat = 2 * 2 ^ (bitLen (cap - 1).toNat - 1) := by
    conv_lhs => rw [show bitLen (cap - 1).toNat = (bitLen (cap - 1).toNat - 1) + 1 by omega]
    rw [pow_succ]; ring
  have hub : (2 : Nat) ^ bitLen (cap - 1).toNat ≤ 2 * (cap - 1).toNat := by omega
  unfold roundCap
  rw [if_neg hns]
  constructor
  · omega
  · omega

theorem goThreshold_lt_cap (lf : ℚ) (cap : Nat) (h0 : 0 < lf) (h1 : lf < 1)
    (hcap : 0 < cap) : goThreshold lf cap < cap := by
  have hnum : 0 < lf.num := Rat.num_pos.mpr h0
  have hden : (0 : Int) < lf.den := by exact_mod_cast lf.pos
  have hnd : lf.num < lf.den := by
    rw [← Rat.num_div_den lf, div_lt_one (by exact_mod_cast lf.pos)] at h1
    exact_mod_cast h1
  unfold goThreshold
  rw [Int.tdiv_eq_ediv (by positivity) (by omega)]
  rw [Int.ediv_lt_iff_lt_mul hden]
  have hc : (0 : Int) < (cap : Int) := by exact_mod_cast hcap
  calc lf.num * cap < lf.den * cap := by
        exact mul_lt_mul_of_pos_right hnd hc
    _ = cap * lf.den := by ring

/-! `cdist` facts (all under `a < n`, `b < n`). -/

theorem cdist_eq (n a b : Nat) (ha : a < n) (hb : b < n) :
    cdist n a b = if a ≤ b then b - a else b + n - a := by
  unfold cdist
  split
  · have hge : n ≤ b + n - a := by omega
    rw [Nat.mod_eq_sub_mod hge]
    have heq : b + n - a - n = b - a := by omega
    rw [heq, Nat.mod_eq_of_lt (by omega)]
  · rw [Nat.mod_eq_of_lt (by omega)]

theorem cdist_lt (n a b : Nat) (ha : a < n) (hb : b < n) : cdist n a b < n := by
  rw [cdist_eq n a b ha hb]; split <;> omega

theorem cdist_eq_zero (n a b : Nat) (ha : a < n) (hb : b < n) (h : cdist n a b = 0) :
    a = b := by
  rw [cdist_eq n a b ha hb] at h
  by_cases hab : a ≤ b
  · rw [if_pos hab] at h; omega
  · rw [if_neg hab] at h; omega

theorem mod_succ_lt (n a : Nat) (ha : a < n) : (a + 1) % n < n :=
  Nat.mod_lt _ (by omega)

theorem cdist_step (n a b : Nat) (ha : a < n) (hb : b < n) (hne : a ≠ b) :
    cdist n ((a + 1) % n) b = cdist n a b - 1 ∧ 1 ≤ cdist n a b := by
  have hd := cdist_eq n a b ha hb
  by_cases hend : a + 1 = n
  · have h1 : (a + 1) % n = 0 := by rw [hend, Nat.mod_self]
    have hd2 : cdist n 0 b = b := by
      rw [cdist_eq n 0 b (by omega) hb, if_pos (Nat.zero_le b)]
      omega
    rw [h1, hd2, hd, if_neg (by omega)]
    omega
  · have h1 : (a + 1) % n = a + 1 := Nat.mod_eq_of_lt (by omega)
    have hd2 := cdist_eq n (a + 1) b (by omega) hb
    rw [h1, hd2, hd]
    by_cases hab : a + 1 ≤ b
    · rw [if_pos hab, if_pos (by omega)]
      omega
    · rw [if_neg hab]
      by_cases hab2 : a ≤ b
      · rw [if_pos hab2]
        omega
      · rw [if_neg hab2]
        omega

theorem cdist_reach (n a j : Nat) (ha : a < n) (hj : j < n) :
    cdist n a ((a + j) % n) = j := by
  by_cases hlt : a + j < n
  · rw [Nat.mod_eq_of_lt hlt, cdist_eq n a (a + j) ha hlt, if_pos (by omega)]
    omega
  · have hge : n ≤ a + j := by omega
    have h1 : (a + j) % n = a + j - n := by
      rw [Nat.mod_eq_sub_mod hge, Nat.mod_eq_of_lt (by omega)]
    rw [h1, cdist_eq n a (a + j - n) ha (by omega), if_neg (by omega)]
    omega

theorem cdist_spec (n a b : Nat) (ha : a < n) (hb : b < n) :
    (a + cdist n a b) % n = b := by
  rw [cdist_eq n a b ha hb]
  by_cases hab : a ≤ b
  · rw [if_pos hab]
    have heq : a + (b - a) = b := by omega
    rw [heq, Nat.mod_eq_of_lt hb]
  · rw [if_neg hab]
    have heq : a + (b + n - a) = b + n := by omega
    rw [heq, Nat.add_mod_right, Nat.mod_eq_of_lt hb]

/-! `entAt` facts. -/

theorem entAt_of_lt (entries : Array Entry) (c : Nat) (h : c < entries.size) :
    entAt entries c = entries[c] := by
  unfold entAt
  rw [Array.getElem?_eq_getElem h]
  rfl

theorem getElem?_eq_entAt (entries : Array Entry) (c : Nat) (h : c < entries.size) :
    entries[c]? = some (entAt entries c) := by
  rw [entAt_of_lt entries c h, Array.getElem?_eq_getElem h]

theorem entAt_setD_self (entries : Array Entry) (c : Nat) (e : Entry)
    (h : c < entries.size) : entAt (entries.setD c e) c = e := by
  have hsz : c < (entries.setD c e).size := by rw [Array.size_setD]; exact h
  rw [entAt_of_lt _ c hsz]
  exact Array.getElem_setD entries c e hsz

theorem entAt_setD_ne (entries : Array Entry) (c : Nat) (e : Entry) (d : Nat)
    (hne : d ≠ c) : entAt (entries.setD c e) d = entAt entries d := by
  unfold Array.setD
  split
  · next hc =>
    by_cases hd : d < entries.size
    · rw [entAt_of_lt _ d (by simpa using hd), entAt_of_lt _ d hd]
      exact Array.get_set_ne entries ⟨c, hc⟩ e hd (by simpa using (Ne.symm hne))
    · unfold entAt
      have hh1 : (entries.set ⟨c, hc⟩ e)[d]? = none := by
        rw [Array.getElem?_eq_none_iff]
        simpa using (by omega : entries.size ≤ d)
      have hh2 : entries[d]? = none := by
        rw [Array.getElem?_eq_none_iff]; omega
      rw [hh1, hh2]
  · rfl

/-! ## The bucket-table invariant

`TableInv H entries L` relates the slot array to the list `L` of stored
strings (in insertion order) under the per-table hash `H`:

* the slot array size is a power of two with strictly fewer stored
  strings than slots;
* `L` has no duplicates (a string is only appended when the probe missed);
* every occupied slot stores `identifier + 1` for a valid identifier
  together with the cached hash of that identifier's string;
* no identifier sits in two slots;
* every identifier sits in some slot;
* linear-probe reachability: the slots strictly between an occupied
  slot's home position `hash &&& (size-1)` and the slot itself are all
  occupied, so a probe that starts at the home position never exits at an
  empty slot before reaching the stored entry. -/
structure TableInv (H : String → Nat) (entries : Array Entry) (L : List String) : Prop where
  pow2 : ∃ k, entries.size = 2 ^ k
  count_lt : L.length < entries.size
  nodup : L.Nodup
  slot_ok : ∀ c, c < entries.size → (entAt entries c).index ≠ 0 →
    ∃ s, L[(entAt entries c).index - 1]? = some s ∧ (entAt entries c).hash = H s
  inj : ∀ c, c < entries.size → ∀ d, d < entries.size →
    (entAt entries c).index ≠ 0 → (entAt entries c).index = (entAt entries d).index →
    c = d
  complete : ∀ i s, L[i]? = some s →
    ∃ c, c < entries.size ∧ (entAt entries c).index = i + 1
  path : ∀ c, c < entries.size → (entAt entries c).index ≠ 0 →
    ∀ j, j < cdist entries.size ((entAt entries c).hash &&& (entries.size - 1)) c →
      (entAt entries
        ((((entAt entries c).hash &&& (entries.size - 1)) + j) % entries.size)).index ≠ 0

theorem TableInv.size_pos {H entries L} (inv : TableInv H entries L) :
    0 < entries.size := Nat.lt_of_le_of_lt (Nat.zero_le _) inv.count_lt

theorem and_mask_lt (x n : Nat) (hn : 0 < n) : x &&& (n - 1) < n :=
  Nat.lt_of_le_of_lt Nat.and_le_right (by omega)

theorem cdist_self (n a : Nat) (ha : a < n) : cdist n a a = 0 := by
  rw [cdist_eq n a a ha ha, if_pos le_rfl]
  omega

/-- A table that stores fewer strings than it has slots has an empty slot:
the occupied slots inject into the identifiers. -/
theorem exists_empty_slot (entries : Array Entry) (bound : Nat)
    (hlen : bound < entries.size)
    (hok : ∀ c, c < entries.size → (entAt entries c).index ≠ 0 →
      (entAt entries c).index - 1 < bound)
    (hinj : ∀ c, c < entries.size → ∀ d, d < entries.size →
      (entAt entries c).index ≠ 0 → (entAt entries c).index = (entAt entries d).index →
      c = d) :
    ∃ c, c < entries.size ∧ (entAt entries c).index = 0 := by
  by_contra hno
  push_neg at hno
  have hcard : (Finset.range entries.size).card ≤ (Finset.range bound).card := by
    apply Finset.card_le_card_of_injOn (fun c => (entAt entries c).index - 1)
    · intro c hcmem
      rw [Finset.mem_range] at hcmem ⊢
      exact hok c hcmem (hno c hcmem)
    · intro c hcmem d hdmem hfeq
      rw [Finset.mem_coe, Finset.mem_range] at hcmem hdmem
      have hc0 := hno c hcmem
      have hd0 := hno d hdmem
      have hfeq2 : (entAt entries c).index - 1 = (entAt entries d).index - 1 := hfeq
      exact hinj c hcmem d hdmem hc0 (by omega)
  rw [Finset.card_range, Finset.card_range] at hcard
  omega

/-- One-step unfolding of `probeLoop` when the current slot exists. -/
theorem probeLoop_succ (entries : Array Entry) (look : Nat → Option String)
    (hashVal : Nat) (val : String) (cursor clashes fuel : Nat)
    (e : Entry) (he : entries[cursor]? = some e) :
    probeLoop entries look hashVal val cursor clashes (fuel + 1) =
      if e.index = 0 then .empty cursor clashes
      else if e.hash = hashVal then
        match look (e.index - 1) with
        | none => .fault
        | some s =>
          if s = val then .hit (e.index - 1) clashes
          else probeLoop entries look hashVal val ((cursor + 1) % entries.size)
            (clashes + 1) fuel
      else probeLoop entries look hashVal val ((cursor + 1) % entries.size)
        (clashes + 1) fuel := by
  simp only [probeLoop]
  rw [he]

/-- If `val` is stored at identifier `i` and its slot `c` is reachable
from the current cursor along occupied slots, the probe returns `.hit i`. -/
theorem probeLoop_hit (entries : Array Entry) (look : Nat → Option String)
    (L : List String) (H : String → Nat) (val : String)
    (hlookOk : ∀ i s, L[i]? = some s → look i = some s)
    (hslot : ∀ c, c < entries.size → (entAt entries c).index ≠ 0 →
      ∃ s, L[(entAt entries c).index - 1]? = some s ∧ (entAt entries c).hash = H s)
    (hinj : ∀ c, c < entries.size → ∀ d, d < entries.size →
      (entAt entries c).index ≠ 0 → (entAt entries c).index = (entAt entries d).index →
      c = d)
    (hnodup : L.Nodup)
    (i : Nat) (hi : L[i]? = some val)
    (c : Nat) (hc : c < entries.size) (hcIdx : (entAt entries c).index = i + 1) :
    ∀ fuel cursor clashes, cursor < entries.size →
      cdist entries.size cursor c < fuel →
      (∀ j, j < cdist entries.size cursor c →
        (entAt entries ((cursor + j) % entries.size)).index ≠ 0) →
      ∃ cl, probeLoop entries look (H val) val cursor clashes fuel = .hit i cl := by
  intro fuel
  induction fuel with
  | zero => intro cursor clashes _ hfuel _; omega
  | succ fuel ih =>
    intro cursor clashes hcur hfuel hocc
    have hsome := getElem?_eq_entAt entries cursor hcur
    rw [probeLoop_succ entries look (H val) val cursor clashes fuel _ hsome]
    by_cases heq : cursor = c
    · subst heq
      have hidx0 : (entAt entries cursor).index ≠ 0 := by omega
      obtain ⟨s, hsL, hsH⟩ := hslot cursor hcur hidx0
      have hsi : (entAt entries cursor).index - 1 = i := by omega
      rw [hsi] at hsL
      have hsval : s = val := by
        rw [hi] at hsL
        exact (Option.some_injective _ hsL).symm
      refine ⟨clashes, ?_⟩
      rw [if_neg hidx0, if_pos (by rw [hsH, hsval]), hsi, hlookOk _ _ hi]
      simp
    · have hdpos : 1 ≤ cdist entries.size cursor c ∧
          cdist entries.size ((cursor + 1) % entries.size) c =
            cdist entries.size cursor c - 1 := by
        have hs := cdist_step entries.size cursor c hcur hc heq
        exact ⟨hs.2, hs.1⟩
      have hidx0 : (entAt entries cursor).index ≠ 0 := by
        have h0 := hocc 0 (by omega)
        rwa [Nat.add_zero, Nat.mod_eq_of_lt hcur] at h0
      rw [if_neg hidx0]
      have hrec : ∃ cl, probeLoop entries look (H val) val
          ((cursor + 1) % entries.size) (clashes + 1) fuel = .hit i cl := by
        apply ih
        · exact Nat.mod_lt _ (by omega)
        · omega
        · intro j hj
          have hshift : ((cursor + 1) % entries.size + j) % entries.size =
              (cursor + (j + 1)) % entries.size := by
            rw [Nat.mod_add_mod]
            congr 1
            omega
          rw [hshift]
          exact hocc (j + 1) (by omega)
      by_cases hhash : (entAt entries cursor).hash = H val
      · rw [if_pos hhash]
        obtain ⟨s, hsL, hsH⟩ := hslot cursor hcur hidx0
        have hlookEq := hlookOk _ _ hsL
        have hsne : s ≠ val := by
          intro hsv
          subst hsv
          have hlt : (entAt entries cursor).index - 1 < L.length :=
            (List.getElem?_eq_some.mp hsL).1
          have hij : (entAt entries cursor).index - 1 = i :=
            List.getElem?_inj hlt hnodup (hsL.trans hi.symm)
          have : (entAt entries cursor).index = (entAt entries c).index := by omega
          exact heq (hinj cursor hcur c hc hidx0 this)
        obtain ⟨cl, hcl⟩ := hrec
        refine ⟨cl, ?_⟩
        simp only [hlookEq]
        rw [if_neg hsne]
        exact hcl
      · rw [if_neg hhash]
        exact hrec

/-- If `val` is not stored and an empty slot is reachable within the
remaining fuel, the probe exits at the first empty slot of the walk. -/
theorem probeLoop_empty (entries : Array Entry) (look : Nat → Option String)
    (L : List String) (H : String → Nat) (val : String) (hashVal : Nat)
    (hlookOk : ∀ i s, L[i]? = some s → look i = some s)
    (hslot : ∀ c, c < entries.size → (entAt entries c).index ≠ 0 →
      ∃ s, L[(entAt entries c).index - 1]? = some s ∧ (entAt entries c).hash = H s)
    (hnot : ∀ (i : Nat) (s : String), L[i]? = some s → s ≠ val) :
    ∀ fuel cursor clashes, cursor < entries.size →
      (∃ j, j < fuel ∧ (entAt entries ((cursor + j) % entries.size)).index = 0) →
      ∃ c cl j, probeLoop entries look hashVal val cursor clashes fuel = .empty c cl ∧
        c < entries.size ∧ (entAt entries c).index = 0 ∧ j < fuel ∧
        c = (cursor + j) % entries.size ∧
        ∀ j2, j2 < j → (entAt entries ((cursor + j2) % entries.size)).index ≠ 0 := by
  intro fuel
  induction fuel with
  | zero =>
    intro cursor clashes _ hex
    obtain ⟨j, hj, _⟩ := hex
    omega
  | succ fuel ih =>
    intro cursor clashes hcur hex
    have hsome := getElem?_eq_entAt entries cursor hcur
    rw [probeLoop_succ entries look hashVal val cursor clashes fuel _ hsome]
    by_cases hidx0 : (entAt entries cursor).index = 0
    · rw [if_pos hidx0]
      refine ⟨cursor, clashes, 0, rfl, hcur, hidx0, by omega, ?_, ?_⟩
      · rw [Nat.add_zero, Nat.mod_eq_of_lt hcur]
      · intro j2 hj2; omega
    · rw [if_neg hidx0]
      obtain ⟨j, hj, hempty⟩ := hex
      have hj0 : j ≠ 0 := by
        intro h0
        subst h0
        rw [Nat.add_zero, Nat.mod_eq_of_lt hcur] at hempty
        exact hidx0 hempty
      have hex2 : ∃ j2, j2 < fuel ∧
          (entAt entries (((cursor + 1) % entries.size + j2) % entries.size)).index = 0 := by
        refine ⟨j - 1, by omega, ?_⟩
        have hshift : ((cursor + 1) % entries.size + (j - 1)) % entries.size =
            (cursor + j) % entries.size := by
          rw [Nat.mod_add_mod]
          congr 1
          omega
        rw [hshift]
        exact hempty
      have hrec := ih ((cursor + 1) % entries.size) (clashes + 1)
        (Nat.mod_lt _ (by omega)) hex2
      obtain ⟨c, cl, j2, hres, hclt, hcempty, hj2, hceq, hocc2⟩ := hrec
      have hwrap : ∀ res : Probe,
          probeLoop entries look hashVal val ((cursor + 1) % entries.size)
            (clashes + 1) fuel = res →
          (if (entAt entries cursor).hash = hashVal then
            match look ((entAt entries cursor).index - 1) with
            | none => Probe.fault
            | some s =>
              if s = val then Probe.hit ((entAt entries cursor).index - 1) clashes
              else probeLoop entries look hashVal val ((cursor + 1) % entries.size)
                (clashes + 1) fuel
          else probeLoop entries look hashVal val ((cursor + 1) % entries.size)
            (clashes + 1) fuel) = res := by
        intro res hres2
        by_cases hhash : (entAt entries cursor).hash = hashVal
        · rw [if_pos hhash]
          obtain ⟨s, hsL, hsH⟩ := hslot cursor hcur hidx0
          have hlookEq := hlookOk _ _ hsL
          have hsne : s ≠ val := hnot _ _ hsL
          simp only [hlookEq]
          rw [if_neg hsne]
          exact hres2
        · rw [if_neg hhash]
          exact hres2
      refine ⟨c, cl, j2 + 1, hwrap _ hres, hclt, hcempty, by omega, ?_, ?_⟩
      · rw [hceq, Nat.mod_add_mod]
        congr 1
        omega
      · intro j3 hj3
        cases j3 with
        | zero =>
          rw [Nat.add_zero, Nat.mod_eq_of_lt hcur]
          exact hidx0
        | succ j4 =>
          have hshift : (cursor + (j4 + 1)) % entries.size =
              ((cursor + 1) % entries.size + j4) % entries.size := by
            rw [Nat.mod_add_mod]
            congr 1
            omega
          rw [hshift]
          exact hocc2 j4 (by omega)

/-- Under the table invariant, probing for a stored string from its home
position hits its identifier. -/
theorem probe_found (H : String → Nat) (entries : Array Entry) (L : List String)
    (inv : TableInv H entries L) (look : Nat → Option String)
    (hlookOk : ∀ (i : Nat) (s : String), L[i]? = some s → look i = some s)
    (val : String) (i : Nat) (hi : L[i]? = some val) :
    ∃ cl, probeLoop entries look (H val) val
      (H val &&& (entries.size - 1)) 0 entries.size = .hit i cl := by
  have hsize := inv.size_pos
  obtain ⟨c, hc, hcIdx⟩ := inv.complete i val hi
  have hstart : H val &&& (entries.size - 1) < entries.size :=
    and_mask_lt _ _ hsize
  have hhome : (entAt entries c).hash = H val := by
    obtain ⟨s, hsL, hsH⟩ := inv.slot_ok c hc (by omega)
    have hsi : (entAt entries c).index - 1 = i := by omega
    rw [hsi, hi] at hsL
    rw [hsH, Option.some_injective _ hsL]
  apply probeLoop_hit entries look L H val hlookOk inv.slot_ok inv.inj inv.nodup i hi c hc
    hcIdx entries.size _ 0 hstart
  · exact cdist_lt _ _ _ hstart hc
  · intro j hj
    have hpath := inv.path c hc (by omega) j (by rwa [hhome])
    rwa [hhome] at hpath

/-- Under the table invariant, probing for an unstored string exits at an
empty slot reachable along occupied slots. -/
theorem probe_notfound (H : String → Nat) (entries : Array Entry) (L : List String)
    (inv : TableInv H entries L) (look : Nat → Option String)
    (hlookOk : ∀ (i : Nat) (s : String), L[i]? = some s → look i = some s)
    (val : String) (hval : val ∉ L) (hashVal : Nat) :
    ∃ c cl j, probeLoop entries look hashVal val
        (hashVal &&& (entries.size - 1)) 0 entries.size = .empty c cl ∧
      c < entries.size ∧ (entAt entries c).index = 0 ∧ j < entries.size ∧
      c = ((hashVal &&& (entries.size - 1)) + j) % entries.size ∧
      ∀ j2, j2 < j →
        (entAt entries (((hashVal &&& (entries.size - 1)) + j2) % entries.size)).index ≠ 0 := by
  have hsize := inv.size_pos
  have hstart : hashVal &&& (entries.size - 1) < entries.size :=
    and_mask_lt _ _ hsize
  have hnot : ∀ (i : Nat) (s : String), L[i]? = some s → s ≠ val := by
    intro i s hs hsv
    subst hsv
    exact hval (List.mem_iff_getElem?.mpr ⟨i, hs⟩)
  have hok : ∀ c, c < entries.size → (entAt entries c).index ≠ 0 →
      (entAt entries c).index - 1 < L.length := by
    intro c hc h0
    obtain ⟨s, hsL, _⟩ := inv.slot_ok c hc h0
    exact (List.getElem?_eq_some.mp hsL).1
  obtain ⟨d, hd, hdEmpty⟩ := exists_empty_slot entries L.length inv.count_lt hok inv.inj
  apply probeLoop_empty entries look L H val hashVal hlookOk inv.slot_ok hnot
    entries.size _ 0 hstart
  refine ⟨cdist entries.size (hashVal &&& (entries.size - 1)) d, ?_, ?_⟩
  · exact cdist_lt _ _ _ hstart hd
  · rw [cdist_spec _ _ _ hstart hd]
    exact hdEmpty

/-- Inserting an unstored string at the empty slot the probe found
preserves the table invariant. -/
theorem tableInv_insert (H : String → Nat) (entries : Array Entry) (L : List String)
    (inv : TableInv H entries L) (val : String) (hval : val ∉ L)
    (c j : Nat) (hc : c < entries.size) (hEmpty : (entAt entries c).index = 0)
    (hj : j < entries.size)
    (hcj : c = ((H val &&& (entries.size - 1)) + j) % entries.size)
    (hocc : ∀ j2, j2 < j →
      (entAt entries (((H val &&& (entries.size - 1)) + j2) % entries.size)).index ≠ 0)
    (hcap : L.length + 1 < entries.size) :
    TableInv H (entries.setD c ⟨H val, L.length + 1⟩) (L ++ [val]) := by
  have hsize := inv.size_pos
  have hstart : H val &&& (entries.size - 1) < entries.size := and_mask_lt _ _ hsize
  have hsz : (entries.setD c ⟨H val, L.length + 1⟩).size = entries.size :=
    Array.size_setD entries c _
  have hAtC : entAt (entries.setD c ⟨H val, L.length + 1⟩) c = ⟨H val, L.length + 1⟩ :=
    entAt_setD_self entries c _ hc
  have hCidx : (entAt (entries.setD c ⟨H val, L.length + 1⟩) c).index = L.length + 1 := by
    rw [hAtC]
  have hChash : (entAt (entries.setD c ⟨H val, L.length + 1⟩) c).hash = H val := by
    rw [hAtC]
  have hAtNe : ∀ d, d ≠ c →
      entAt (entries.setD c ⟨H val, L.length + 1⟩) d = entAt entries d := fun d hd =>
    entAt_setD_ne entries c _ d hd
  have hIdxLe : ∀ d, d < entries.size → (entAt entries d).index ≠ 0 →
      (entAt entries d).index ≤ L.length := by
    intro d hd h0
    obtain ⟨s, hsL, _⟩ := inv.slot_ok d hd h0
    have := (List.getElem?_eq_some.mp hsL).1
    omega
  constructor
  · rw [hsz]; exact inv.pow2
  · rw [hsz]
    simp only [List.length_append, List.length_singleton]
    omega
  · rw [List.nodup_append]
    refine ⟨inv.nodup, List.nodup_singleton val, ?_⟩
    intro a ha hamem
    rw [List.mem_singleton] at hamem
    subst hamem
    exact hval ha
  · -- slot_ok
    intro d hd h0
    rw [hsz] at hd
    by_cases hdc : d = c
    · subst hdc
      rw [hCidx, hChash]
      refine ⟨val, ?_, rfl⟩
      have heq : L.length + 1 - 1 = L.length := by omega
      rw [heq]
      exact List.getElem?_concat_length L val
    · rw [hAtNe d hdc] at h0 ⊢
      obtain ⟨s, hsL, hsH⟩ := inv.slot_ok d hd h0
      refine ⟨s, ?_, hsH⟩
      rw [List.getElem?_append_left (List.getElem?_eq_some.mp hsL).1]
      exact hsL
  · -- inj
    intro d hd d2 hd2 h0 hidx
    rw [hsz] at hd hd2
    by_cases hdc : d = c <;> by_cases hd2c : d2 = c
    · rw [hdc, hd2c]
    · subst hdc
      rw [hCidx] at hidx
      rw [hAtNe d2 hd2c] at hidx
      by_cases h20 : (entAt entries d2).index = 0
      · omega
      · have hle := hIdxLe d2 hd2 h20
        omega
    · subst hd2c
      rw [hAtNe d hdc] at h0 hidx
      rw [hCidx] at hidx
      have hle := hIdxLe d hd h0
      omega
    · rw [hAtNe d hdc] at h0 hidx
      rw [hAtNe d2 hd2c] at hidx
      exact inv.inj d hd d2 hd2 h0 hidx
  · -- complete
    intro i s hs
    by_cases hi : i < L.length
    · rw [List.getElem?_append_left hi] at hs
      obtain ⟨d, hd, hdIdx⟩ := inv.complete i s hs
      have hdc : d ≠ c := by
        intro h
        subst h
        omega
      exact ⟨d, by omega, by rw [hAtNe d hdc]; exact hdIdx⟩
    · have hlen : i < L.length + 1 := by
        have := (List.getElem?_eq_some.mp hs).1
        simpa using this
      have hil : i = L.length := by omega
      subst hil
      exact ⟨c, by omega, hCidx⟩
  · -- path
    intro d hd h0 j2 hj2
    rw [hsz] at hd hj2
    rw [hsz]
    by_cases hdc : d = c
    · subst hdc
      rw [hChash] at hj2 ⊢
      have hdist : cdist entries.size (H val &&& (entries.size - 1)) d = j := by
        rw [hcj]
        exact cdist_reach _ _ _ hstart hj
      rw [hdist] at hj2
      have hslot2 := hocc j2 hj2
      have hne : ((H val &&& (entries.size - 1)) + j2) % entries.size ≠ d := by
        intro h
        rw [h] at hslot2
        exact hslot2 hEmpty
      rw [hAtNe _ hne]
      exact hslot2
    · rw [hAtNe d hdc] at h0 hj2 ⊢
      by_cases hs2c :
          (((entAt entries d).hash &&& (entries.size - 1)) + j2) % entries.size = c
      · rw [hs2c, hCidx]
        omega
      · rw [hAtNe _ hs2c]
        exact inv.path d hd h0 j2 hj2

/-- One-step unfolding of `rehashLoop` when the current slot exists. -/
theorem rehashLoop_succ (entries : Array Entry) (cursor : Nat) (e : Entry)
    (fuel : Nat) (cur : Entry) (he : entries[cursor]? = some cur) :
    rehashLoop entries cursor e (fuel + 1) =
      if cur.index = 0 then entries.setD cursor e
      else rehashLoop entries ((cursor + 1) % entries.size) e fuel := by
  simp only [rehashLoop]
  rw [he]

/-- The re-insertion loop places the entry at the first empty slot of the
cyclic walk. -/
theorem rehashLoop_spec (acc : Array Entry) (e : Entry) :
    ∀ fuel cursor, cursor < acc.size →
      (∃ j, j < fuel ∧ (entAt acc ((cursor + j) % acc.size)).index = 0) →
      ∃ c j, rehashLoop acc cursor e fuel = acc.setD c e ∧
        c < acc.size ∧ (entAt acc c).index = 0 ∧ j < fuel ∧
        c = (cursor + j) % acc.size ∧
        ∀ j2, j2 < j → (entAt acc ((cursor + j2) % acc.size)).index ≠ 0 := by
  intro fuel
  induction fuel with
  | zero =>
    intro cursor _ hex
    obtain ⟨j, hj, _⟩ := hex
    omega
  | succ fuel ih =>
    intro cursor hcur hex
    have hsome := getElem?_eq_entAt acc cursor hcur
    rw [rehashLoop_succ acc cursor e fuel _ hsome]
    by_cases hidx0 : (entAt acc cursor).index = 0
    · rw [if_pos hidx0]
      refine ⟨cursor, 0, rfl, hcur, hidx0, by omega, ?_, ?_⟩
      · rw [Nat.add_zero, Nat.mod_eq_of_lt hcur]
      · intro j2 hj2; omega
    · rw [if_neg hidx0]
      obtain ⟨j, hj, hempty⟩ := hex
      have hj0 : j ≠ 0 := by
        intro h0
        subst h0
        rw [Nat.add_zero, Nat.mod_eq_of_lt hcur] at hempty
        exact hidx0 hempty
      have hex2 : ∃ j2, j2 < fuel ∧
          (entAt acc (((cursor + 1) % acc.size + j2) % acc.size)).index = 0 := by
        refine ⟨j - 1, by omega, ?_⟩
        have hshift : ((cursor + 1) % acc.size + (j - 1)) % acc.size =
            (cursor + j) % acc.size := by
          rw [Nat.mod_add_mod]
          congr 1
          omega
        rw [hshift]
        exact hempty
      obtain ⟨c, j2, hres, hclt, hcempty, hj2, hceq, hocc2⟩ :=
        ih ((cursor + 1) % acc.size) (Nat.mod_lt _ (by omega)) hex2
      refine ⟨c, j2 + 1, hres, hclt, hcempty, by omega, ?_, ?_⟩
      · rw [hceq, Nat.mod_add_mod]
        congr 1
        omega
      · intro j3 hj3
        cases j3 with
        | zero =>
          rw [Nat.add_zero, Nat.mod_eq_of_lt hcur]
          exact hidx0
        | succ j4 =>
          have hshift : (cursor + (j4 + 1)) % acc.size =
              ((cursor + 1) % acc.size + j4) % acc.size := by
            rw [Nat.mod_add_mod]
            congr 1
            omega
          rw [hshift]
          exact hocc2 j4 (by omega)

theorem entAt_mkArray (n : Nat) (v : Entry) (c : Nat) (h : c < n) :
    entAt (Array.mkArray n v) c = v := by
  have hsz : c < (Array.mkArray n v).size := by simpa using h
  rw [entAt_of_lt _ c hsz]
  exact Array.getElem_mkArray n v hsz

/-- Intermediate invariant of the re-insertion fold inside `resize`:
`acc` is the partially filled doubled array and `rem` the still
unprocessed old slots. -/
structure GrowInv (H : String → Nat) (L : List String) (acc : Array Entry)
    (rem : List Entry) : Prop where
  slot_ok : ∀ c, c < acc.size → (entAt acc c).index ≠ 0 →
    ∃ s, L[(entAt acc c).index - 1]? = some s ∧ (entAt acc c).hash = H s
  inj : ∀ c, c < acc.size → ∀ d, d < acc.size →
    (entAt acc c).index ≠ 0 → (entAt acc c).index = (entAt acc d).index → c = d
  path : ∀ c, c < acc.size → (entAt acc c).index ≠ 0 →
    ∀ j, j < cdist acc.size ((entAt acc c).hash &&& (acc.size - 1)) c →
      (entAt acc ((((entAt acc c).hash &&& (acc.size - 1)) + j) % acc.size)).index ≠ 0
  compl : ∀ i s, L[i]? = some s →
    (∃ c, c < acc.size ∧ (entAt acc c).index = i + 1) ∨ (∃ e ∈ rem, e.index = i + 1)
  rem_ok : ∀ e ∈ rem, e.index ≠ 0 → ∃ s, L[e.index - 1]? = some s ∧ e.hash = H s
  absent : ∀ e ∈ rem, e.index ≠ 0 → ∀ c, c < acc.size → (entAt acc c).index ≠ e.index
  remPW : rem.Pairwise (fun a b => a.index ≠ 0 → b.index ≠ 0 → a.index ≠ b.index)

/-- Re-inserting one occupied old slot preserves the fold invariant. -/
theorem growInv_step (H : String → Nat) (L : List String) (acc : Array Entry)
    (e : Entry) (rem : List Entry) (inv : GrowInv H L acc (e :: rem))
    (hLlt : L.length < acc.size) (he0 : e.index ≠ 0) :
    ∃ c, rehashLoop acc (e.hash &&& (acc.size - 1)) e acc.size = acc.setD c e ∧
      GrowInv H L (acc.setD c e) rem := by
  have hsize : 0 < acc.size := by omega
  have hstart : e.hash &&& (acc.size - 1) < acc.size := and_mask_lt _ _ hsize
  have hok : ∀ c, c < acc.size → (entAt acc c).index ≠ 0 →
      (entAt acc c).index - 1 < L.length := by
    intro c hc h0
    obtain ⟨s, hsL, _⟩ := inv.slot_ok c hc h0
    exact (List.getElem?_eq_some.mp hsL).1
  obtain ⟨d, hd, hdEmpty⟩ := exists_empty_slot acc L.length hLlt hok inv.inj
  have hex : ∃ j, j < acc.size ∧
      (entAt acc (((e.hash &&& (acc.size - 1)) + j) % acc.size)).index = 0 := by
    refine ⟨cdist acc.size (e.hash &&& (acc.size - 1)) d, cdist_lt _ _ _ hstart hd, ?_⟩
    rw [cdist_spec _ _ _ hstart hd]
    exact hdEmpty
  obtain ⟨c, j, hres, hc, hcEmpty, hj, hcj, hocc⟩ :=
    rehashLoop_spec acc e acc.size (e.hash &&& (acc.size - 1)) hstart hex
  refine ⟨c, hres, ?_⟩
  have hsz : (acc.setD c e).size = acc.size := Array.size_setD acc c _
  have hAtC : entAt (acc.setD c e) c = e := entAt_setD_self acc c _ hc
  have hAtNe : ∀ d2, d2 ≠ c → entAt (acc.setD c e) d2 = entAt acc d2 := fun d2 hd2 =>
    entAt_setD_ne acc c _ d2 hd2
  have hheadPW : ∀ e2 ∈ rem, e.index ≠ 0 → e2.index ≠ 0 → e.index ≠ e2.index :=
    (List.pairwise_cons.mp inv.remPW).1
  constructor
  · -- slot_ok
    intro d2 hd2 h0
    rw [hsz] at hd2
    by_cases hdc : d2 = c
    · subst hdc
      rw [hAtC] at h0 ⊢
      exact inv.rem_ok e (List.mem_cons_self e rem) h0
    · rw [hAtNe d2 hdc] at h0 ⊢
      exact inv.slot_ok d2 hd2 h0
  · -- inj
    intro d2 hd2 d3 hd3 h0 hidx
    rw [hsz] at hd2 hd3
    by_cases hdc : d2 = c <;> by_cases hd3c : d3 = c
    · rw [hdc, hd3c]
    · subst hdc
      rw [hAtC] at h0 hidx
      rw [hAtNe d3 hd3c] at hidx
      by_cases h30 : (entAt acc d3).index = 0
      · omega
      · exact absurd hidx.symm (inv.absent e (List.mem_cons_self e rem) h0 d3 hd3)
    · subst hd3c
      rw [hAtNe d2 hdc] at h0 hidx
      rw [hAtC] at hidx
      exact absurd hidx (inv.absent e (List.mem_cons_self e rem) (by omega) d2 hd2)
    · rw [hAtNe d2 hdc] at h0 hidx
      rw [hAtNe d3 hd3c] at hidx
      exact inv.inj d2 hd2 d3 hd3 h0 hidx
  · -- path
    intro d2 hd2 h0 j2 hj2
    rw [hsz] at hd2 hj2
    rw [hsz]
    by_cases hdc : d2 = c
    · subst hdc
      rw [hAtC] at hj2 ⊢
      have hdist : cdist acc.size (e.hash &&& (acc.size - 1)) d2 = j := by
        rw [hcj]
        exact cdist_reach _ _ _ hstart hj
      rw [hdist] at hj2
      have hslot2 := hocc j2 hj2
      have hne : ((e.hash &&& (acc.size - 1)) + j2) % acc.size ≠ d2 := by
        intro h
        rw [h] at hslot2
        exact hslot2 hcEmpty
      rw [hAtNe _ hne]
      exact hslot2
    · rw [hAtNe d2 hdc] at h0 hj2 ⊢
      by_cases hs2c : (((entAt acc d2).hash &&& (acc.size - 1)) + j2) % acc.size = c
      · rw [hs2c, hAtC]
        exact (by omega : e.index ≠ 0)
      · rw [hAtNe _ hs2c]
        exact inv.path d2 hd2 h0 j2 hj2
  · -- compl
    intro i s hs
    rcases inv.compl i s hs with ⟨d2, hd2, hidx⟩ | ⟨e2, he2, hidx⟩
    · left
      have hdc : d2 ≠ c := by
        intro h
        subst h
        omega
      exact ⟨d2, by omega, by rw [hAtNe d2 hdc]; exact hidx⟩
    · rcases List.mem_cons.mp he2 with he2h | he2t
      · left
        subst he2h
        exact ⟨c, by omega, by rw [hAtC]; exact hidx⟩
      · right
        exact ⟨e2, he2t, hidx⟩
  · -- rem_ok
    intro e2 he2 h0
    exact inv.rem_ok e2 (List.mem_cons_of_mem e he2) h0
  · -- absent
    intro e2 he2 h0 d2 hd2
    rw [hsz] at hd2
    by_cases hdc : d2 = c
    · subst hdc
      rw [hAtC]
      exact hheadPW e2 he2 he0 h0
    · rw [hAtNe d2 hdc]
      exact inv.absent e2 (List.mem_cons_of_mem e he2) h0 d2 hd2
  · -- remPW
    exact inv.remPW.of_cons

/-- Skipping an empty old slot preserves the fold invariant. -/
theorem growInv_skip (H : String → Nat) (L : List String) (acc : Array Entry)
    (e : Entry) (rem : List Entry) (inv : GrowInv H L acc (e :: rem))
    (he0 : e.index = 0) : GrowInv H L acc rem := by
  constructor
  · exact inv.slot_ok
  · exact inv.inj
  · exact inv.path
  · intro i s hs
    rcases inv.compl i s hs with h | ⟨e2, he2, hidx⟩
    · left; exact h
    · rcases List.mem_cons.mp he2 with he2h | he2t
      · subst he2h
        omega
      · right
        exact ⟨e2, he2t, hidx⟩
  · intro e2 he2 h0
    exact inv.rem_ok e2 (List.mem_cons_of_mem e he2) h0
  · intro e2 he2 h0 d2 hd2
    exact inv.absent e2 (List.mem_cons_of_mem e he2) h0 d2 hd2
  · exact inv.remPW.of_cons

/-- Folding the re-insertion over the old slots yields an array that
satisfies the terminal fold invariant. -/
theorem growInv_fold (H : String → Nat) (L : List String) (n2 : Nat)
    (hLlt : L.length < n2) :
    ∀ (rem : List Entry) (acc : Array Entry), acc.size = n2 →
      GrowInv H L acc rem →
      (List.foldl (fun acc e => if e.index = 0 then acc
        else rehashLoop acc (e.hash &&& (n2 - 1)) e n2) acc rem).size = n2 ∧
      GrowInv H L (List.foldl (fun acc e => if e.index = 0 then acc
        else rehashLoop acc (e.hash &&& (n2 - 1)) e n2) acc rem) [] := by
  intro rem
  induction rem with
  | nil =>
    intro acc hsz inv
    exact ⟨hsz, inv⟩
  | cons e rem ih =>
    intro acc hsz inv
    rw [List.foldl_cons]
    by_cases he0 : e.index = 0
    · rw [if_pos he0]
      exact ih acc hsz (growInv_skip H L acc e rem inv he0)
    · rw [if_neg he0]
      obtain ⟨c, hres, hinv2⟩ :=
        growInv_step H L acc e rem inv (by omega) he0
      rw [hsz] at hres
      rw [hres]
      exact ih (acc.setD c e) (by rw [Array.size_setD]; exact hsz) hinv2

/-- Doubling the slot array via `growEntries` (the body of `resize`)
preserves the table invariant and exactly doubles the capacity. -/
theorem tableInv_grow (H : String → Nat) (entries : Array Entry) (L : List String)
    (inv : TableInv H entries L) :
    TableInv H (growEntries entries) L ∧
      (growEntries entries).size = 2 * entries.size := by
  have hsize := inv.size_pos
  set n2 := 2 * entries.size with hn2
  have hLlt : L.length < n2 := by
    have := inv.count_lt
    omega
  have hfold : growEntries entries =
      List.foldl (fun acc e => if e.index = 0 then acc
        else rehashLoop acc (e.hash &&& (n2 - 1)) e n2)
        (Array.mkArray n2 ⟨0, 0⟩) entries.toList := rfl
  have hinit : GrowInv H L (Array.mkArray n2 ⟨0, 0⟩) entries.toList := by
    have hinitAt : ∀ c, c < (Array.mkArray n2 (⟨0, 0⟩ : Entry)).size →
        entAt (Array.mkArray n2 ⟨0, 0⟩) c = ⟨0, 0⟩ := by
      intro c hc
      rw [Array.size_mkArray] at hc
      exact entAt_mkArray n2 _ c hc
    have hmem : ∀ e ∈ entries.toList, ∃ c, c < entries.size ∧ entAt entries c = e := by
      intro e he
      obtain ⟨Ni, hNi⟩ := List.mem_iff_getElem?.mp he
      have hlt : Ni < entries.toList.length := (List.getElem?_eq_some.mp hNi).1
      have hlen : entries.toList.length = entries.size := Array.length_toList
      refine ⟨Ni, by omega, ?_⟩
      rw [entAt_of_lt entries Ni (by omega), ← Array.getElem_toList (by omega)]
      exact (List.getElem?_eq_some.mp hNi).2
    constructor
    · intro c hc h0
      rw [hinitAt c hc] at h0
      simp at h0
    · intro c hc d hd h0 _
      rw [hinitAt c hc] at h0
      simp at h0
    · intro c hc h0
      rw [hinitAt c hc] at h0
      simp at h0
    · intro i s hs
      right
      obtain ⟨c, hc, hcIdx⟩ := inv.complete i s hs
      refine ⟨entAt entries c, ?_, hcIdx⟩
      rw [List.mem_iff_getElem?]
      refine ⟨c, ?_⟩
      rw [List.getElem?_eq_some]
      have hlen : entries.toList.length = entries.size := Array.length_toList
      refine ⟨by omega, ?_⟩
      rw [entAt_of_lt entries c hc]
      exact Array.getElem_toList hc
    · intro e he h0
      obtain ⟨c, hc, hce⟩ := hmem e he
      rw [← hce]
      exact inv.slot_ok c hc (by rw [hce]; exact h0)
    · intro e he h0 c hc
      rw [hinitAt c hc]
      simp
      omega
    · rw [List.pairwise_iff_getElem]
      intro i j hi hj hij hi0 hj0
      have hlen : entries.toList.length = entries.size := Array.length_toList
      have hgi : entries.toList[i] = entAt entries i := by
        rw [entAt_of_lt entries i (by omega)]
        exact Array.getElem_toList (by omega)
      have hgj : entries.toList[j] = entAt entries j := by
        rw [entAt_of_lt entries j (by omega)]
        exact Array.getElem_toList (by omega)
      rw [hgi, hgj]
      rw [hgi] at hi0
      rw [hgj] at hj0
      intro heq
      have := inv.inj i (by omega) j (by omega) hi0 heq
      omega
  obtain ⟨hfsz, hfinv⟩ := growInv_fold H L n2 hLlt entries.toList
    (Array.mkArray n2 ⟨0, 0⟩) (Array.size_mkArray n2 _) hinit
  rw [← hfold] at hfsz hfinv
  refine ⟨?_, hfsz⟩
  constructor
  · rw [hfsz]
    obtain ⟨k, hk⟩ := inv.pow2
    exact ⟨k + 1, by rw [hn2, hk]; ring⟩
  · omega
  · exact inv.nodup
  · exact hfinv.slot_ok
  · exact hfinv.inj
  · intro i s hs
    rcases hfinv.compl i s hs with h | ⟨e, he, _⟩
    · exact h
    · exact absurd he (List.not_mem_nil e)
  · exact hfinv.path

namespace Flat

/-- Full invariant of a flat table: bucket-table invariant against the
stored string list, plus the load-factor bounds the claims assume. -/
def Inv (t : Intern) : Prop :=
  TableInv (genhash t.hashFn) t.entries t.strings ∧
    0 < t.loadFactor ∧ t.loadFactor < 1

/-- The arena lookup used inside the probe agrees with the string list. -/
theorem lookOk (t : Intern) :
    ∀ (i : Nat) (s : String), t.strings[i]? = some s →
      t.IndexToString (i : Int) = some s := by
  intro i s hs
  unfold Intern.IndexToString
  rw [if_pos (by positivity)]
  simpa using hs

theorem resize_spec (t : Intern) (hinv : Inv t) :
    Inv t.resize ∧ t.resize.strings = t.strings ∧ t.resize.clashes = t.clashes ∧
      t.resize.loadFactor = t.loadFactor ∧ t.resize.hashFn = t.hashFn ∧
      t.strings.length + 1 < t.resize.entries.size ∧
      t.entries.size ≤ t.resize.entries.size := by
  obtain ⟨hti, hlf0, hlf1⟩ := hinv
  by_cases hlt : (t.strings.length : Int) < goThreshold t.loadFactor t.entries.size
  · have hres : t.resize = t := by
      unfold Intern.resize
      rw [if_pos hlt]
    rw [hres]
    have hthr := goThreshold_lt_cap t.loadFactor t.entries.size hlf0 hlf1 hti.size_pos
    exact ⟨⟨hti, hlf0, hlf1⟩, rfl, rfl, rfl, rfl, by omega, le_rfl⟩
  · have hres : t.resize = { t with entries := growEntries t.entries } := by
      unfold Intern.resize
      rw [if_neg hlt]
    obtain ⟨hti2, hsz⟩ := tableInv_grow (genhash t.hashFn) t.entries t.strings hti
    rw [hres]
    have hcnt := hti.count_lt
    have hs1 : t.strings.length + 1 < (growEntries t.entries).size := by omega
    have hs2 : t.entries.size ≤ (growEntries t.entries).size := by omega
    exact ⟨⟨hti2, hlf0, hlf1⟩, rfl, rfl, rfl, rfl, hs1, hs2⟩

/-- A `StringToIndex` call on a stored string returns its position in the
string list and leaves the arena untouched. -/
theorem stringToIndex_mem (t : Intern) (hinv : Inv t) (val : String) (i : Nat)
    (hi : t.strings[i]? = some val) :
    ∃ cl, t.StringToIndex val =
      some (i, { t.resize with clashes := t.resize.clashes + cl }) := by
  obtain ⟨hres_inv, hstr, hcl, hlf, hhf, hcap, hszle⟩ := resize_spec t hinv
  have hi1 : t.resize.strings[i]? = some val := by rw [hstr]; exact hi
  obtain ⟨cl, hprobe⟩ := probe_found (genhash t.resize.hashFn) t.resize.entries
    t.resize.strings hres_inv.1 (fun n => t.resize.IndexToString (n : Int))
    (lookOk t.resize) val i hi1
  refine ⟨cl, ?_⟩
  simp only [Intern.StringToIndex]
  rw [hprobe]

/-- A `StringToIndex` call on an unstored string mints the next
identifier and appends the string. -/
theorem stringToIndex_notMem (t : Intern) (hinv : Inv t) (val : String)
    (hval : val ∉ t.strings) :
    ∃ t2, t.StringToIndex val = some (t.strings.length, t2) ∧
      t2.strings = t.strings ++ [val] ∧ Inv t2 ∧
      t2.loadFactor = t.loadFactor ∧ t2.hashFn = t.hashFn ∧
      t.entries.size ≤ t2.entries.size := by
  obtain ⟨hres_inv, hstr, hcl, hlf, hhf, hcap, hszle⟩ := resize_spec t hinv
  have hval1 : val ∉ t.resize.strings := by rw [hstr]; exact hval
  obtain ⟨c, cl, j, hprobe, hc, hcEmpty, hj, hcj, hocc⟩ :=
    probe_notfound (genhash t.resize.hashFn) t.resize.entries t.resize.strings
      hres_inv.1 (fun n => t.resize.IndexToString (n : Int)) (lookOk t.resize) val hval1
      (genhash t.resize.hashFn val)
  refine ⟨{ t.resize with
      clashes := t.resize.clashes + cl
      strings := t.resize.strings ++ [val]
      entries := t.resize.entries.setD c
        ⟨genhash t.resize.hashFn val, (t.resize.strings ++ [val]).length⟩ }, ?_, ?_, ?_, ?_, ?_, ?_⟩
  · have heq : t.StringToIndex val = some ((t.resize.strings ++ [val]).length - 1,
        { t.resize with
          clashes := t.resize.clashes + cl
          strings := t.resize.strings ++ [val]
          entries := t.resize.entries.setD c
            ⟨genhash t.resize.hashFn val, (t.resize.strings ++ [val]).length⟩ }) := by
      simp only [Intern.StringToIndex]
      rw [hprobe]
    have hid : (t.resize.strings ++ [val]).length - 1 = t.strings.length := by
      rw [hstr]
      simp
    rw [hid] at heq
    exact heq
  · rw [hstr]
  · have hlen : (t.resize.strings ++ [val]).length = t.resize.strings.length + 1 := by
      simp
    have hcap2 : t.resize.strings.length + 1 < t.resize.entries.size := by
      rw [hstr]
      exact hcap
    have hins := tableInv_insert (genhash t.resize.hashFn) t.resize.entries
      t.resize.strings hres_inv.1 val hval1 c j hc hcEmpty hj hcj hocc hcap2
    refine ⟨?_, hres_inv.2.1, hres_inv.2.2⟩
    rw [hlen]
    exact hins
  · exact hlf
  · exact hhf
  · show t.entries.size ≤ (t.resize.entries.setD c
      ⟨genhash t.resize.hashFn val, (t.resize.strings ++ [val]).length⟩).size
    rw [Array.size_setD]
    exact hszle

/-- `StringToIndex` never panics on a table satisfying the invariant, and
its result is characterized by membership of the string in the arena. -/
theorem stringToIndex_spec (t : Intern) (hinv : Inv t) (val : String) (id : Nat)
    (t2 : Intern) (heq : t.StringToIndex val = some (id, t2)) :
    Inv t2 ∧ t2.loadFactor = t.loadFactor ∧ t2.hashFn = t.hashFn ∧
      t.entries.size ≤ t2.entries.size ∧ t2.strings[id]? = some val ∧
      ((val ∈ t.strings ∧ t2.strings = t.strings ∧
          ∀ i, t.strings[i]? = some val → id = i) ∨
        (val ∉ t.strings ∧ id = t.strings.length ∧
          t2.strings = t.strings ++ [val])) := by
  obtain ⟨hres_inv, hstr, hcl, hlf, hhf, hcap, hszle⟩ := resize_spec t hinv
  by_cases hmem : val ∈ t.strings
  · obtain ⟨i, hi⟩ := List.mem_iff_getElem?.mp hmem
    obtain ⟨cl, heq2⟩ := stringToIndex_mem t hinv val i hi
    rw [heq] at heq2
    have hpair : id = i ∧ t2 = { t.resize with clashes := t.resize.clashes + cl } := by
      have h1 := Option.some_injective _ heq2
      exact ⟨congrArg Prod.fst h1, congrArg Prod.snd h1⟩
    obtain ⟨hid, ht2⟩ := hpair
    subst hid
    subst ht2
    refine ⟨⟨hres_inv.1, hres_inv.2.1, hres_inv.2.2⟩, hlf, hhf, hszle, ?_, ?_⟩
    · rw [hstr]
      exact hi
    · left
      refine ⟨hmem, hstr, ?_⟩
      intro i2 hi2
      have hlen := (List.getElem?_eq_some.mp hi).1
      exact List.getElem?_inj hlen hinv.1.nodup (hi.trans hi2.symm)
  · obtain ⟨t2', heq2, hstr2, hinv2, hlf2, hhf2, hsz2⟩ :=
      stringToIndex_notMem t hinv val hmem
    rw [heq] at heq2
    have hpair : id = t.strings.length ∧ t2 = t2' := by
      have h1 := Option.some_injective _ heq2
      exact ⟨congrArg Prod.fst h1, congrArg Prod.snd h1⟩
    obtain ⟨hid, ht2⟩ := hpair
    subst hid
    subst ht2
    refine ⟨hinv2, hlf2, hhf2, hsz2, ?_, Or.inr ⟨hmem, rfl, hstr2⟩⟩
    rw [hstr2]
    exact List.getElem?_concat_length t.strings val

/-- On a table satisfying the invariant, `StringToIndex` always returns a
result (it never reaches the `panic("out of space!")` and never faults). -/
theorem stringToIndex_total (t : Intern) (hinv : Inv t) (val : String) :
    t.StringToIndex val ≠ none := by
  by_cases hmem : val ∈ t.strings
  · obtain ⟨i, hi⟩ := List.mem_iff_getElem?.mp hmem
    obtain ⟨cl, heq⟩ := stringToIndex_mem t hinv val i hi
    rw [heq]
    exact Option.noConfusion
  · obtain ⟨t2, heq, _⟩ := stringToIndex_notMem t hinv val hmem
    rw [heq]
    exact Option.noConfusion

/-- Tables reachable from `New` by `StringToIndex` calls, with a load
factor in `(0, 1)` as the claims assume. -/
inductive Reachable : Intern → Prop
  | new (cap : Int) (lf : ℚ) (hf : String → Nat) (h0 : 0 < lf) (h1 : lf < 1) :
      Reachable (New cap lf hf)
  | step (t : Intern) (val : String) (id : Nat) (t2 : Intern) :
      Reachable t → t.StringToIndex val = some (id, t2) → Reachable t2

/-- A fresh table satisfies the invariant. -/
theorem inv_new (cap : Int) (lf : ℚ) (hf : String → Nat) (h0 : 0 < lf)
    (h1 : lf < 1) : Inv (New cap lf hf) := by
  refine ⟨?_, h0, h1⟩
  have hsz : (New cap lf hf).entries.size = roundCap cap := Array.size_mkArray _ _
  have hpos := roundCap_pos cap
  constructor
  · rw [hsz]; exact roundCap_pow2 cap
  · rw [hsz]; simpa using hpos
  · exact List.nodup_nil
  · intro c hc h0c
    rw [hsz] at hc
    rw [show (New cap lf hf).entries = Array.mkArray (roundCap cap) ⟨0, 0⟩ from rfl,
      entAt_mkArray _ _ c hc] at h0c
    simp at h0c
  · intro c hc d hd h0c _
    rw [hsz] at hc
    rw [show (New cap lf hf).entries = Array.mkArray (roundCap cap) ⟨0, 0⟩ from rfl,
      entAt_mkArray _ _ c hc] at h0c
    simp at h0c
  · intro i s hs
    rw [show (New cap lf hf).strings = [] from rfl] at hs
    simp at hs
  · intro c hc h0c
    rw [hsz] at hc
    rw [show (New cap lf hf).entries = Array.mkArray (roundCap cap) ⟨0, 0⟩ from rfl,
      entAt_mkArray _ _ c hc] at h0c
    simp at h0c

/-- Every reachable table satisfies the invariant. -/
theorem reachable_inv (t : Intern) (h : Reachable t) : Inv t := by
  induction h with
  | new cap lf hf h0 h1 => exact inv_new cap lf hf h0 h1
  | step t val id t2 _ heq ih => exact (stringToIndex_spec t ih val id t2 heq).1

/-- Zero or more `StringToIndex` calls, relating a table to a later state
of the same table. -/
inductive Steps : Intern → Intern → Prop
  | refl (t : Intern) : Steps t t
  | tail (t t2 t3 : Intern) (val : String) (id : Nat) :
      Steps t t2 → t2.StringToIndex val = some (id, t3) → Steps t t3

/-- Along any sequence of calls the arena only grows by appending, the
invariant is preserved, and the slot capacity never shrinks. -/
theorem steps_ext (t t2 : Intern) (hinv : Inv t) (h : Steps t t2) :
    Inv t2 ∧ (∃ ext, t2.strings = t.strings ++ ext) ∧
      t.entries.size ≤ t2.entries.size := by
  induction h with
  | refl => exact ⟨hinv, ⟨[], by simp⟩, le_rfl⟩
  | tail t2 t3 val id hsteps heq ih =>
    obtain ⟨hinv2, ⟨ext, hext⟩, hsz⟩ := ih
    obtain ⟨hinv3, _, _, hsz3, _, hcases⟩ := stringToIndex_spec t2 hinv2 val id t3 heq
    rcases hcases with ⟨_, hstr3, _⟩ | ⟨_, _, hstr3⟩
    · exact ⟨hinv3, ⟨ext, by rw [hstr3, hext]⟩, by omega⟩
    · exact ⟨hinv3, ⟨ext ++ [val], by rw [hstr3, hext, List.append_assoc]⟩, by omega⟩

theorem reachable_steps (t t2 : Intern) (h1 : Reachable t) (h2 : Steps t t2) :
    Reachable t2 := by
  induction h2 with
  | refl => exact h1
  | tail t2 t3 val id hsteps heq ih => exact Reachable.step t2 val id t3 ih heq

end Flat

/-! ## Array `getD`/`setD` facts used for the chunked arena -/

theorem arr_getD_setD_self (a : Array String) (k : Nat) (v : String)
    (hk : k < a.size) : (a.setD k v).getD k "" = v := by
  unfold Array.setD
  rw [dif_pos hk]
  unfold Array.getD
  rw [dif_pos (by simpa using hk)]
  have hk2 : k < (a.set ⟨k, hk⟩ v).size := by simpa using hk
  show (a.set ⟨k, hk⟩ v)[k] = v
  exact Array.getElem_set_eq a ⟨k, hk⟩ v rfl _

theorem arr_getD_setD_ne (a : Array String) (k j : Nat) (v : String)
    (hne : j ≠ k) : (a.setD k v).getD j "" = a.getD j "" := by
  unfold Array.setD
  split
  · next hk =>
    unfold Array.getD
    by_cases hj : j < a.size
    · rw [dif_pos (by simpa using hj), dif_pos hj]
      have hj2 : j < (a.set ⟨k, hk⟩ v).size := by simpa using hj
      show (a.set ⟨k, hk⟩ v)[j] = a[j]
      exact Array.get_set_ne a ⟨k, hk⟩ v hj (by simpa using Ne.symm hne)
    · rw [dif_neg (by simpa using hj), dif_neg hj]
  · rfl

namespace Chunked

/-- Full invariant of a chunked table relative to the list `L` of stored
strings in insertion order: the bucket-table invariant, the counter and
cached threshold, the chunk shape (`(count+1023)/1024` chunks of 1024
slots) and coherence of the chunked arena with `L`. -/
structure InvL (t : Intern) (L : List String) : Prop where
  ti : TableInv (genhash t.hashFn) t.entries L
  cnt : t.count = L.length
  thr : t.threshold = goThreshold t.loadFactor t.entries.size
  lf0 : 0 < t.loadFactor
  lf1 : t.loadFactor < 1
  chlen : t.strings.length = (t.count + 1023) / 1024
  chsz : ∀ ch ∈ t.strings, ch.size = 1024
  look : ∀ (i : Nat) (s : String), L[i]? = some s → t.IndexToString (i : Int) = some s

/-- `IndexToString` at a nonnegative identifier, in `Nat` arithmetic. -/
theorem indexToString_nat (t : Intern) (i : Nat) :
    t.IndexToString (i : Int) =
      (t.strings[i / 1024]?).map (fun ch => ch.getD (i % 1024) "") := by
  unfold Intern.IndexToString
  have hdiv : (Int.tdiv (i : Int) 1024).toNat = i / 1024 := by
    have h := (Int.ofNat_tdiv i 1024).symm
    simp at h
    omega
  have hmod : (Int.emod (i : Int) 1024).toNat = i % 1024 := by
    have h : Int.emod (i : Int) 1024 = (i : Int) % 1024 := rfl
    rw [h]
    omega
  have hpos : 0 ≤ Int.tdiv (i : Int) 1024 :=
    Int.tdiv_nonneg (by positivity) (by norm_num)
  rw [if_pos hpos, hdiv, hmod]

theorem resize_specC (t : Intern) (L : List String) (hinv : InvL t L) :
    InvL t.resize L ∧ t.resize.strings = t.strings ∧ t.resize.count = t.count ∧
      t.resize.clashes = t.clashes ∧ t.resize.loadFactor = t.loadFactor ∧
      t.resize.hashFn = t.hashFn ∧
      t.count + 1 < t.resize.entries.size ∧
      t.entries.size ≤ t.resize.entries.size := by
  by_cases hlt : (t.count : Int) < t.threshold
  · have hres : t.resize = t := by
      unfold Intern.resize
      rw [if_pos hlt]
    rw [hres]
    have hthr := goThreshold_lt_cap t.loadFactor t.entries.size hinv.lf0 hinv.lf1
      hinv.ti.size_pos
    rw [hinv.thr] at hlt
    exact ⟨hinv, rfl, rfl, rfl, rfl, rfl, by omega, le_rfl⟩
  · have hres : t.resize =
        { t with
          entries := growEntries t.entries
          threshold := goThreshold t.loadFactor (2 * t.entries.size) } := by
      unfold Intern.resize
      rw [if_neg hlt]
    obtain ⟨hti2, hsz⟩ := tableInv_grow (genhash t.hashFn) t.entries L hinv.ti
    rw [hres]
    have hcnt := hinv.ti.count_lt
    have hcnt2 := hinv.cnt
    refine ⟨?_, rfl, rfl, rfl, rfl, rfl, ?_, ?_⟩
    · constructor
      · exact hti2
      · exact hcnt2
      · show goThreshold t.loadFactor (2 * t.entries.size) =
          goThreshold t.loadFactor (growEntries t.entries).size
        rw [hsz]
      · exact hinv.lf0
      · exact hinv.lf1
      · exact hinv.chlen
      · exact hinv.chsz
      · exact hinv.look
    · show t.count + 1 < (growEntries t.entries).size
      omega
    · show t.entries.size ≤ (growEntries t.entries).size
      omega

/-- A `StringToIndex` call on a stored string returns its identifier and
only updates the clash counter (after the unconditional resize check). -/
theorem stringToIndex_memC (t : Intern) (L : List String) (hinv : InvL t L)
    (val : String) (i : Nat) (hi : L[i]? = some val) :
    ∃ cl, t.StringToIndex val =
      some (i, { t.resize with clashes := t.resize.clashes + cl }) := by
  obtain ⟨hres_inv, hstr, hcnt, hcl, hlf, hhf, hcap, hszle⟩ := resize_specC t L hinv
  obtain ⟨cl, hprobe⟩ := probe_found (genhash t.resize.hashFn) t.resize.entries L
    hres_inv.ti (fun n => t.resize.IndexToString (n : Int)) hres_inv.look val i hi
  refine ⟨cl, ?_⟩
  simp only [Intern.StringToIndex]
  rw [hprobe]

/-- A `StringToIndex` call on an unstored string mints `count` as the new
identifier, stores the string in the chunked arena (appending a fresh
chunk when `count` is a multiple of 1024) and bumps the count. -/
theorem stringToIndex_notMemC (t : Intern) (L : List String) (hinv : InvL t L)
    (val : String) (hval : val ∉ L) :
    ∃ t2, t.StringToIndex val = some (L.length, t2) ∧ InvL t2 (L ++ [val]) ∧
      t2.loadFactor = t.loadFactor ∧ t2.hashFn = t.hashFn ∧
      t2.count = t.count + 1 ∧ t.entries.size ≤ t2.entries.size := by
  obtain ⟨hres_inv, hstr, hcnt, hcl, hlf, hhf, hcap, hszle⟩ := resize_specC t L hinv
  set t1 := t.resize with ht1
  obtain ⟨c, cl, j, hprobe, hc, hcEmpty, hj, hcj, hocc⟩ :=
    probe_notfound (genhash t1.hashFn) t1.entries L hres_inv.ti
      (fun n => t1.IndexToString (n : Int)) hres_inv.look val hval
      (genhash t1.hashFn val)
  have hcntL : t1.count = L.length := hres_inv.cnt
  set strings1 := if t1.count % 1024 = 0 then t1.strings ++ [Array.mkArray 1024 ""]
    else t1.strings with hstr1
  have hchlen : t1.strings.length = (t1.count + 1023) / 1024 := hres_inv.chlen
  have hlen1 : strings1.length = t1.count / 1024 + 1 := by
    rw [hstr1]
    by_cases hk0 : t1.count % 1024 = 0
    · rw [if_pos hk0]
      simp only [List.length_append, List.length_singleton]
      omega
    · rw [if_neg hk0]
      omega
  have hjlt : t1.count / 1024 < strings1.length := by omega
  obtain ⟨chunk, hchunk⟩ : ∃ ch, strings1[t1.count / 1024]? = some ch := by
    cases hget : strings1[t1.count / 1024]? with
    | none =>
      have := List.getElem?_eq_none_iff.mp hget
      omega
    | some ch => exact ⟨ch, rfl⟩
  have hchszAll : ∀ ch ∈ strings1, ch.size = 1024 := by
    intro ch hch
    rw [hstr1] at hch
    by_cases hk0 : t1.count % 1024 = 0
    · rw [if_pos hk0] at hch
      rcases List.mem_append.mp hch with h | h
      · exact hres_inv.chsz ch h
      · rw [List.mem_singleton] at h
        subst h
        exact Array.size_mkArray _ _
    · rw [if_neg hk0] at hch
      exact hres_inv.chsz ch hch
  have hchunkMem : chunk ∈ strings1 := by
    obtain ⟨hb, hg⟩ := List.getElem?_eq_some.mp hchunk
    rw [← hg]
    exact List.getElem_mem hb
  have hchsz : chunk.size = 1024 := hchszAll chunk hchunkMem
  have heq1 : t.StringToIndex val =
      (match strings1[t1.count / 1024]? with
       | none => none
       | some chunk => some (t1.count,
          { t1 with
            clashes := t1.clashes + cl
            count := t1.count + 1
            strings := strings1.set (t1.count / 1024) (chunk.setD (t1.count % 1024) val)
            entries := t1.entries.setD c ⟨genhash t1.hashFn val, t1.count + 1⟩ })) := by
    simp only [Intern.StringToIndex]
    rw [hprobe]
  have heq2 : t.StringToIndex val = some (t1.count,
      { t1 with
        clashes := t1.clashes + cl
        count := t1.count + 1
        strings := strings1.set (t1.count / 1024) (chunk.setD (t1.count % 1024) val)
        entries := t1.entries.setD c ⟨genhash t1.hashFn val, t1.count + 1⟩ }) := by
    rw [heq1, hchunk]
  refine ⟨{ t1 with
      clashes := t1.clashes + cl
      count := t1.count + 1
      strings := strings1.set (t1.count / 1024) (chunk.setD (t1.count % 1024) val)
      entries := t1.entries.setD c ⟨genhash t1.hashFn val, t1.count + 1⟩ },
    ?_, ?_, ?_, ?_, ?_, ?_⟩
  · rw [← hcntL]
    exact heq2
  · constructor
    · -- bucket-table invariant
      show TableInv (genhash t1.hashFn)
        (t1.entries.setD c ⟨genhash t1.hashFn val, t1.count + 1⟩) (L ++ [val])
      rw [show t1.count + 1 = L.length + 1 from by omega]
      exact tableInv_insert (genhash t1.hashFn) t1.entries L hres_inv.ti val hval
        c j hc hcEmpty hj hcj hocc (by omega)
    · show t1.count + 1 = (L ++ [val]).length
      simp only [List.length_append, List.length_singleton]
      omega
    · show t1.threshold =
        goThreshold t1.loadFactor (t1.entries.setD c ⟨genhash t1.hashFn val, t1.count + 1⟩).size
      rw [Array.size_setD]
      exact hres_inv.thr
    · exact hres_inv.lf0
    · exact hres_inv.lf1
    · show (strings1.set (t1.count / 1024) (chunk.setD (t1.count % 1024) val)).length =
        (t1.count + 1 + 1023) / 1024
      rw [List.length_set]
      omega
    · intro ch hch
      have hch2 : ch ∈ strings1 ∨ ch = chunk.setD (t1.count % 1024) val :=
        List.mem_or_eq_of_mem_set hch
      rcases hch2 with h | h
      · exact hchszAll ch h
      · subst h
        rw [Array.size_setD]
        exact hchsz
    · -- arena coherence
      intro i s hs
      by_cases hiL : i < L.length
      · have hs2 : L[i]? = some s := by
          rw [List.getElem?_append_left hiL] at hs
          exact hs
        have hold := hres_inv.look i s hs2
        rw [indexToString_nat] at hold
        rw [indexToString_nat]
        dsimp only
        by_cases hij : i / 1024 = t1.count / 1024
        · have hk0ne : t1.count % 1024 ≠ 0 := by omega
          have hstr1eq : strings1 = t1.strings := by rw [hstr1, if_neg hk0ne]
          rw [hij, List.getElem?_set_self (by omega), Option.map_some']
          rw [arr_getD_setD_ne chunk (t1.count % 1024) (i % 1024) val (by omega)]
          rw [hij, ← hstr1eq, hchunk, Option.map_some'] at hold
          exact hold
        · rw [List.getElem?_set_ne (by omega)]
          have hget1 : strings1[i / 1024]? = t1.strings[i / 1024]? := by
            rw [hstr1]
            by_cases hk0 : t1.count % 1024 = 0
            · rw [if_pos hk0]
              exact List.getElem?_append_left (by omega)
            · rw [if_neg hk0]
          rw [hget1]
          exact hold
      · have hlen2 : i < L.length + 1 := by
          have := (List.getElem?_eq_some.mp hs).1
          simp at this
          omega
        have hieq : i = L.length := by omega
        subst hieq
        have hsval : s = val := by
          rw [List.getElem?_concat_length] at hs
          exact (Option.some_injective _ hs).symm
        rw [hsval]
        rw [indexToString_nat]
        dsimp only
        rw [show L.length / 1024 = t1.count / 1024 from by omega,
          show L.length % 1024 = t1.count % 1024 from by omega,
          List.getElem?_set_self (by omega), Option.map_some']
        rw [arr_getD_setD_self chunk (t1.count % 1024) val (by omega)]
  · exact hlf
  · exact hhf
  · show t1.count + 1 = t.count + 1
    omega
  · show t.entries.size ≤ (t1.entries.setD c ⟨genhash t1.hashFn val, t1.count + 1⟩).size
    rw [Array.size_setD]
    exact hszle

/-- Result characterization of a chunked `StringToIndex` call. -/
theorem stringToIndex_specC (t : Intern) (L : List String) (hinv : InvL t L)
    (val : String) (id : Nat) (t2 : Intern)
    (heq : t.StringToIndex val = some (id, t2)) :
    ∃ L2, InvL t2 L2 ∧ t2.loadFactor = t.loadFactor ∧ t2.hashFn = t.hashFn ∧
      t.entries.size ≤ t2.entries.size ∧ L2[id]? = some val ∧
      ((val ∈ L ∧ L2 = L ∧ t2.count = t.count ∧ t2.strings = t.strings ∧
          ∀ i, L[i]? = some val → id = i) ∨
        (val ∉ L ∧ id = L.length ∧ L2 = L ++ [val] ∧ t2.count = t.count + 1)) := by
  obtain ⟨hres_inv, hstr, hcnt, hcl, hlf, hhf, hcap, hszle⟩ := resize_specC t L hinv
  by_cases hmem : val ∈ L
  · obtain ⟨i, hi⟩ := List.mem_iff_getElem?.mp hmem
    obtain ⟨cl, heq2⟩ := stringToIndex_memC t L hinv val i hi
    rw [heq] at heq2
    have h1 := Option.some_injective _ heq2
    have hid : id = i := congrArg Prod.fst h1
    have ht2 : t2 = { t.resize with clashes := t.resize.clashes + cl } :=
      congrArg Prod.snd h1
    subst hid
    subst ht2
    refine ⟨L, ?_, hlf, hhf, hszle, hi, Or.inl ⟨hmem, rfl, ?_, ?_, ?_⟩⟩
    · constructor
      · exact hres_inv.ti
      · exact hres_inv.cnt
      · show t.resize.threshold =
          goThreshold t.resize.loadFactor t.resize.entries.size
        exact hres_inv.thr
      · exact hres_inv.lf0
      · exact hres_inv.lf1
      · exact hres_inv.chlen
      · exact hres_inv.chsz
      · exact hres_inv.look
    · show t.resize.count = t.count
      exact hcnt
    · show t.resize.strings = t.strings
      exact hstr
    · intro i2 hi2
      exact List.getElem?_inj (List.getElem?_eq_some.mp hi).1 hinv.ti.nodup
        (hi.trans hi2.symm)
  · obtain ⟨t2', heq2, hinv2, hlf2, hhf2, hcnt2, hsz2⟩ :=
      stringToIndex_notMemC t L hinv val hmem
    rw [heq] at heq2
    have h1 := Option.some_injective _ heq2
    have hid : id = L.length := congrArg Prod.fst h1
    have ht2 : t2 = t2' := congrArg Prod.snd h1
    subst hid
    subst ht2
    exact ⟨L ++ [val], hinv2, hlf2, hhf2, hsz2, List.getElem?_concat_length L val,
      Or.inr ⟨hmem, rfl, rfl, hcnt2⟩⟩

/-- On a chunked table satisfying the invariant, `StringToIndex` always
returns a result. -/
theorem stringToIndex_totalC (t : Intern) (L : List String) (hinv : InvL t L)
    (val : String) : t.StringToIndex val ≠ none := by
  by_cases hmem : val ∈ L
  · obtain ⟨i, hi⟩ := List.mem_iff_getElem?.mp hmem
    obtain ⟨cl, heq⟩ := stringToIndex_memC t L hinv val i hi
    rw [heq]
    exact Option.noConfusion
  · obtain ⟨t2, heq, _⟩ := stringToIndex_notMemC t L hinv val hmem
    rw [heq]
    exact Option.noConfusion

/-- Chunked tables reachable from `New` by `StringToIndex` calls, with a
load factor in `(0, 1)` as the claims assume. -/
inductive Reachable : Intern → Prop
  | new (cap : Int) (lf : ℚ) (hf : String → Nat) (h0 : 0 < lf) (h1 : lf < 1) :
      Reachable (New cap lf hf)
  | step (t : Intern) (val : String) (id : Nat) (t2 : Intern) :
      Reachable t → t.StringToIndex val = some (id, t2) → Reachable t2

/-- A fresh chunked table satisfies the invariant with the empty list. -/
theorem inv_newC (cap : Int) (lf : ℚ) (hf : String → Nat) (h0 : 0 < lf)
    (h1 : lf < 1) : InvL (New cap lf hf) [] := by
  have hsz : (New cap lf hf).entries.size = roundCap cap := Array.size_mkArray _ _
  have hpos := roundCap_pos cap
  constructor
  · constructor
    · rw [hsz]; exact roundCap_pow2 cap
    · rw [hsz]; simpa using hpos
    · exact List.nodup_nil
    · intro c hc h0c
      rw [hsz] at hc
      rw [show (New cap lf hf).entries = Array.mkArray (roundCap cap) ⟨0, 0⟩ from rfl,
        entAt_mkArray _ _ c hc] at h0c
      simp at h0c
    · intro c hc d hd h0c _
      rw [hsz] at hc
      rw [show (New cap lf hf).entries = Array.mkArray (roundCap cap) ⟨0, 0⟩ from rfl,
        entAt_mkArray _ _ c hc] at h0c
      simp at h0c
    · intro i s hs
      simp at hs
    · intro c hc h0c
      rw [hsz] at hc
      rw [show (New cap lf hf).entries = Array.mkArray (roundCap cap) ⟨0, 0⟩ from rfl,
        entAt_mkArray _ _ c hc] at h0c
      simp at h0c
  · rfl
  · show goThreshold lf (roundCap cap) =
      goThreshold lf (New cap lf hf).entries.size
    rw [hsz]
  · exact h0
  · exact h1
  · rw [show (New cap lf hf).strings = ([] : List (Array String)) from rfl,
      show (New cap lf hf).count = 0 from rfl]
    rfl
  · intro ch hch
    rw [show (New cap lf hf).strings = [] from rfl] at hch
    simp at hch
  · intro i s hs
    simp at hs

/-- Every reachable chunked table satisfies the invariant for some list
of stored strings. -/
theorem reachable_invC (t : Intern) (h : Reachable t) : ∃ L, InvL t L := by
  induction h with
  | new cap lf hf h0 h1 => exact ⟨[], inv_newC cap lf hf h0 h1⟩
  | step t val id t2 _ heq ih =>
    obtain ⟨L, hL⟩ := ih
    obtain ⟨L2, hL2, _⟩ := stringToIndex_specC t L hL val id t2 heq
    exact ⟨L2, hL2⟩

/-- Zero or more chunked `StringToIndex` calls. -/
inductive Steps : Intern → Intern → Prop
  | refl (t : Intern) : Steps t t
  | tail (t t2 t3 : Intern) (val : String) (id : Nat) :
      Steps t t2 → t2.StringToIndex val = some (id, t3) → Steps t t3

/-- Along any sequence of calls the stored list only grows by appending,
the invariant is preserved, and the slot capacity never shrinks. -/
theorem steps_extC (t t2 : Intern) (L : List String) (hinv : InvL t L)
    (h : Steps t t2) :
    ∃ ext, InvL t2 (L ++ ext) ∧ t.entries.size ≤ t2.entries.size := by
  induction h with
  | refl => exact ⟨[], by rw [List.append_nil]; exact hinv, le_rfl⟩
  | tail t2 t3 val id hsteps heq ih =>
    obtain ⟨ext, hinv2, hsz⟩ := ih
    obtain ⟨L2, hinv3, _, _, hsz3, _, hcases⟩ :=
      stringToIndex_specC t2 (L ++ ext) hinv2 val id t3 heq
    rcases hcases with ⟨_, hL2, _⟩ | ⟨_, _, hL2, _⟩
    · exact ⟨ext, hL2 ▸ hinv3, by omega⟩
    · refine ⟨ext ++ [val], ?_, by omega⟩
      rw [← List.append_assoc, ← hL2]
      exact hinv3

theorem reachable_stepsC (t t2 : Intern) (h1 : Reachable t) (h2 : Steps t t2) :
    Reachable t2 := by
  induction h2 with
  | refl => exact h1
  | tail t2 t3 val id hsteps heq ih => exact Reachable.step t2 val id t3 ih heq

end Chunked

/-- Inserting a list of fresh, pairwise-distinct strings into a flat
table returns consecutive identifiers starting at the current count. -/
theorem flat_insertAll_range (ss : List String) :
    ∀ t : Flat.Intern, Flat.Inv t → (t.strings ++ ss).Nodup →
    ∃ t2, Flat.insertAll t ss = some (List.range' t.strings.length ss.length, t2) ∧
      Flat.Inv t2 ∧ t2.strings = t.strings ++ ss := by
  induction ss with
  | nil =>
    intro t hinv _
    refine ⟨t, ?_, hinv, by simp⟩
    simp [Flat.insertAll]
  | cons s rest ih =>
    intro t hinv hnd
    have hs_not : s ∉ t.strings := by
      rw [List.nodup_append] at hnd
      intro hmem
      exact hnd.2.2 hmem (List.mem_cons_self s rest)
    obtain ⟨t1, heq1, hstr1, hinv1, _, _, _⟩ :=
      Flat.stringToIndex_notMem t hinv s hs_not
    have hnd1 : (t1.strings ++ rest).Nodup := by
      rw [hstr1, List.append_assoc]
      simpa using hnd
    obtain ⟨t2, heq2, hinv2, hstr2⟩ := ih t1 hinv1 hnd1
    have hlen1 : t1.strings.length = t.strings.length + 1 := by
      rw [hstr1]
      simp
    refine ⟨t2, ?_, hinv2, ?_⟩
    · simp only [Flat.insertAll, heq1, heq2]
      rw [hlen1, List.length_cons, List.range'_succ]
    · rw [hstr2, hstr1, List.append_assoc]
      simp

/-- Inserting a list of fresh, pairwise-distinct strings into a chunked
table returns consecutive identifiers starting at the current count. -/
theorem chunked_insertAll_range (ss : List String) :
    ∀ (t : Chunked.Intern) (L : List String), Chunked.InvL t L → (L ++ ss).Nodup →
    ∃ t2, Chunked.insertAll t ss = some (List.range' L.length ss.length, t2) ∧
      Chunked.InvL t2 (L ++ ss) := by
  induction ss with
  | nil =>
    intro t L hinv _
    refine ⟨t, ?_, by simpa using hinv⟩
    simp [Chunked.insertAll]
  | cons s rest ih =>
    intro t L hinv hnd
    have hs_not : s ∉ L := by
      rw [List.nodup_append] at hnd
      intro hmem
      exact hnd.2.2 hmem (List.mem_cons_self s rest)
    obtain ⟨t1, heq1, hinv1, _, _, _, _⟩ :=
      Chunked.stringToIndex_notMemC t L hinv s hs_not
    have hnd1 : ((L ++ [s]) ++ rest).Nodup := by
      rw [List.append_assoc]
      simpa using hnd
    obtain ⟨t2, heq2, hinv2⟩ := ih t1 (L ++ [s]) hinv1 hnd1
    have hlen1 : (L ++ [s]).length = L.length + 1 := by simp
    refine ⟨t2, ?_, ?_⟩
    · simp only [Chunked.insertAll, heq1, heq2]
      rw [hlen1, List.length_cons, List.range'_succ]
    · rw [List.append_assoc] at hinv2
      simpa using hinv2

/-! ## Concrete example tables used by the witnesses

All use the hash function that maps every string to 0, which also forces
hash collisions between distinct strings. -/

set_option maxRecDepth 1000000

def exHash : String → Nat := fun _ => 0

theorem exLf0 : 0 < mkRat 1 2 := by norm_num [mkRat, Rat.normalize]

theorem exLf1 : mkRat 1 2 < 1 := by norm_num [mkRat, Rat.normalize]

/-- A fresh flat table: `New(0, 1/2)`. -/
def exFlat0 : Flat.Intern := Flat.New 0 (mkRat 1 2) exHash

/-- `exFlat0` after `StringToIndex("a")`. -/
def exFlat1 : Flat.Intern :=
  { clashes := 0
    entries := (Array.mkArray 16 ⟨0, 0⟩).setD 0 ⟨0, 1⟩
    strings := ["a"]
    loadFactor := mkRat 1 2
    hashFn := exHash }

/-- `exFlat1` after `StringToIndex("b")` (which collides with `"a"`). -/
def exFlat2 : Flat.Intern :=
  { clashes := 1
    entries := ((Array.mkArray 16 ⟨0, 0⟩).setD 0 ⟨0, 1⟩).setD 1 ⟨0, 2⟩
    strings := ["a", "b"]
    loadFactor := mkRat 1 2
    hashFn := exHash }

/-- `exFlat2` after a repeated `StringToIndex("b")`: a hit that still
walks over the colliding slot of `"a"` and counts one more clash. -/
def exFlat3 : Flat.Intern :=
  { clashes := 2
    entries := ((Array.mkArray 16 ⟨0, 0⟩).setD 0 ⟨0, 1⟩).setD 1 ⟨0, 2⟩
    strings := ["a", "b"]
    loadFactor := mkRat 1 2
    hashFn := exHash }

theorem exFlat1_eq : exFlat0.StringToIndex "a" = some (0, exFlat1) := rfl

theorem exFlat2_eq : exFlat1.StringToIndex "b" = some (1, exFlat2) := rfl

theorem exFlat3_eq : exFlat2.StringToIndex "b" = some (1, exFlat3) := rfl

theorem exFlat0_reach : Flat.Reachable exFlat0 :=
  Flat.Reachable.new 0 (mkRat 1 2) exHash exLf0 exLf1

theorem exFlat1_reach : Flat.Reachable exFlat1 :=
  Flat.Reachable.step exFlat0 "a" 0 exFlat1 exFlat0_reach exFlat1_eq

theorem exFlat2_reach : Flat.Reachable exFlat2 :=
  Flat.Reachable.step exFlat1 "b" 1 exFlat2 exFlat1_reach exFlat2_eq

/-- A fresh chunked table: `New(0, 1/2)`. -/
def exChunk0 : Chunked.Intern := Chunked.New 0 (mkRat 1 2) exHash

/-- `exChunk0` after `StringToIndex("a")`: one 1024-slot chunk was
allocated and position 0 holds `"a"`. -/
def exChunk1 : Chunked.Intern :=
  { clashes := 0
    entries := (Array.mkArray 16 ⟨0, 0⟩).setD 0 ⟨0, 1⟩
    strings := [(Array.mkArray 1024 "").setD 0 "a"]
    count := 1
    threshold := 8
    loadFactor := mkRat 1 2
    hashFn := exHash }

/-- `exChunk1` after `StringToIndex("b")`. -/
def exChunk2 : Chunked.Intern :=
  { clashes := 1
    entries := ((Array.mkArray 16 ⟨0, 0⟩).setD 0 ⟨0, 1⟩).setD 1 ⟨0, 2⟩
    strings := [((Array.mkArray 1024 "").setD 0 "a").setD 1 "b"]
    count := 2
    threshold := 8
    loadFactor := mkRat 1 2
    hashFn := exHash }

theorem exChunk1_eq : exChunk0.StringToIndex "a" = some (0, exChunk1) := rfl

theorem exChunk2_eq : exChunk1.StringToIndex "b" = some (1, exChunk2) := rfl

theorem exChunk0_reach : Chunked.Reachable exChunk0 :=
  Chunked.Reachable.new 0 (mkRat 1 2) exHash exLf0 exLf1

theorem exChunk1_reach : Chunked.Reachable exChunk1 :=
  Chunked.Reachable.step exChunk0 "a" 0 exChunk1 exChunk0_reach exChunk1_eq

theorem exChunk2_reach : Chunked.Reachable exChunk2 :=
  Chunked.Reachable.step exChunk1 "b" 1 exChunk2 exChunk1_reach exChunk2_eq

theorem exLfSixteenth0 : 0 < mkRat 1 16 := by norm_num [mkRat, Rat.normalize]

theorem exLfSixteenth1 : mkRat 1 16 < 1 := by norm_num [mkRat, Rat.normalize]

/-- A flat table with load factor `1/16`, so that the second call already
triggers a capacity-doubling resize. -/
def exGrow0 : Flat.Intern := Flat.New 0 (mkRat 1 16) exHash

/-- `exGrow0` after `StringToIndex("a")`. -/
def exGrow1 : Flat.Intern :=
  { clashes := 0
    entries := (Array.mkArray 16 ⟨0, 0⟩).setD 0 ⟨0, 1⟩
    strings := ["a"]
    loadFactor := mkRat 1 16
    hashFn := exHash }

/-- `exGrow1` after a repeated `StringToIndex("a")`: a pure hit call whose
unconditional resize check nevertheless doubled the slot array. -/
def exGrow2 : Flat.Intern :=
  { clashes := 0
    entries := growEntries ((Array.mkArray 16 ⟨0, 0⟩).setD 0 ⟨0, 1⟩)
    strings := ["a"]
    loadFactor := mkRat 1 16
    hashFn := exHash }

theorem exGrow1_eq : exGrow0.StringToIndex "a" = some (0, exGrow1) := rfl

theorem exGrow2_eq : exGrow1.StringToIndex "a" = some (0, exGrow2) := rfl

theorem flat_indexToString_nat (t : Flat.Intern) (i : Nat) :
    t.IndexToString (i : Int) = t.strings[i]? := by
  unfold Flat.Intern.IndexToString
  rw [if_pos (by positivity)]
  simp

/-! ## The claims -/

/-- Claim C1: for every table and every string `s` that has been inserted
via `StringToIndex`, calling `IndexToString` on the identifier returned by
`StringToIndex(s)` returns `s` itself, in both the flat-slice and the
chunked-arena implementation. -/
theorem claim_C1_roundTrip :
    (∀ t : Flat.Intern, Flat.Reachable t →
      ∀ (s : String) (id : Nat) (t2 : Flat.Intern),
        t.StringToIndex s = some (id, t2) →
        t2.IndexToString (id : Int) = some s) ∧
    (∀ t : Chunked.Intern, Chunked.Reachable t →
      ∀ (s : String) (id : Nat) (t2 : Chunked.Intern),
        t.StringToIndex s = some (id, t2) →
        t2.IndexToString (id : Int) = some s) := by
  constructor
  · intro t hreach s id t2 heq
    have hinv := Flat.reachable_inv t hreach
    obtain ⟨_, _, _, _, hget, _⟩ := Flat.stringToIndex_spec t hinv s id t2 heq
    rw [flat_indexToString_nat]
    exact hget
  · intro t hreach s id t2 heq
    obtain ⟨L, hinv⟩ := Chunked.reachable_invC t hreach
    obtain ⟨L2, hinv2, _, _, _, hget, _⟩ :=
      Chunked.stringToIndex_specC t L hinv s id t2 heq
    exact hinv2.look id s hget

/-- Witness for C1 at a concrete insertion on both implementations. -/
theorem claim_C1_witness :
    exFlat1.IndexToString 0 = some "a" ∧ exChunk1.IndexToString 0 = some "a" :=
  ⟨claim_C1_roundTrip.1 exFlat0 exFlat0_reach "a" 0 exFlat1 exFlat1_eq,
   claim_C1_roundTrip.2 exChunk0 exChunk0_reach "a" 0 exChunk1 exChunk1_eq⟩

/-- Claim C2: two `StringToIndex(s)` calls on the same table instance,
with any sequence of other `StringToIndex` calls in between, return the
same identifier, in both implementations. -/
theorem claim_C2_determinism :
    (∀ t : Flat.Intern, Flat.Reachable t →
      ∀ (s : String) (id : Nat) (t1 : Flat.Intern),
        t.StringToIndex s = some (id, t1) →
      ∀ t2 : Flat.Intern, Flat.Steps t1 t2 →
      ∀ (id2 : Nat) (t3 : Flat.Intern),
        t2.StringToIndex s = some (id2, t3) → id2 = id) ∧
    (∀ t : Chunked.Intern, Chunked.Reachable t →
      ∀ (s : String) (id : Nat) (t1 : Chunked.Intern),
        t.StringToIndex s = some (id, t1) →
      ∀ t2 : Chunked.Intern, Chunked.Steps t1 t2 →
      ∀ (id2 : Nat) (t3 : Chunked.Intern),
        t2.StringToIndex s = some (id2, t3) → id2 = id) := by
  constructor
  · intro t hreach s id t1 heq1 t2 hsteps id2 t3 heq2
    have hinv := Flat.reachable_inv t hreach
    obtain ⟨hinv1, _, _, _, hget1, _⟩ := Flat.stringToIndex_spec t hinv s id t1 heq1
    obtain ⟨hinv2, ⟨ext, hext⟩, _⟩ := Flat.steps_ext t1 t2 hinv1 hsteps
    have hget2 : t2.strings[id]? = some s := by
      rw [hext]
      rw [List.getElem?_append_left (List.getElem?_eq_some.mp hget1).1]
      exact hget1
    obtain ⟨_, _, _, _, _, hcases⟩ := Flat.stringToIndex_spec t2 hinv2 s id2 t3 heq2
    rcases hcases with ⟨_, _, huniq⟩ | ⟨hnot, _, _⟩
    · exact huniq id hget2
    · exact absurd (List.mem_iff_getElem?.mpr ⟨id, hget2⟩) hnot
  · intro t hreach s id t1 heq1 t2 hsteps id2 t3 heq2
    obtain ⟨L, hinv⟩ := Chunked.reachable_invC t hreach
    obtain ⟨L1, hinv1, _, _, _, hget1, _⟩ :=
      Chunked.stringToIndex_specC t L hinv s id t1 heq1
    obtain ⟨ext, hinv2, _⟩ := Chunked.steps_extC t1 t2 L1 hinv1 hsteps
    have hget2 : (L1 ++ ext)[id]? = some s := by
      rw [List.getElem?_append_left (List.getElem?_eq_some.mp hget1).1]
      exact hget1
    obtain ⟨L3, _, _, _, _, _, hcases⟩ :=
      Chunked.stringToIndex_specC t2 (L1 ++ ext) hinv2 s id2 t3 heq2
    rcases hcases with ⟨_, _, _, _, huniq⟩ | ⟨hnot, _, _⟩
    · exact huniq id hget2
    · exact absurd (List.mem_iff_getElem?.mpr ⟨id, hget2⟩) hnot

/-- Witness for C2: re-asking for `"a"` after an intervening state (here
the reflexive sequence) returns the same identifier on both
implementations. -/
theorem claim_C2_witness : (0 : Nat) = 0 ∧ (0 : Nat) = 0 :=
  ⟨claim_C2_determinism.1 exFlat0 exFlat0_reach "a" 0 exFlat1 exFlat1_eq
      exFlat1 (Flat.Steps.refl exFlat1) 0 exFlat1 rfl,
   claim_C2_determinism.2 exChunk0 exChunk0_reach "a" 0 exChunk1 exChunk1_eq
      exChunk1 (Chunked.Steps.refl exChunk1) 0 exChunk1 rfl⟩

/-- Claim C7: with a load factor in `(0, 1)`, the probe loop of
`StringToIndex` always terminates at a matching or empty slot: the fatal
"out of space!" wrap-around panic (and any other fault) is unreachable,
in both implementations. -/
theorem claim_C7_noPanic :
    (∀ t : Flat.Intern, Flat.Reachable t → ∀ s : String,
      t.StringToIndex s ≠ none) ∧
    (∀ t : Chunked.Intern, Chunked.Reachable t → ∀ s : String,
      t.StringToIndex s ≠ none) := by
  constructor
  · intro t hreach s
    exact Flat.stringToIndex_total t (Flat.reachable_inv t hreach) s
  · intro t hreach s
    obtain ⟨L, hinv⟩ := Chunked.reachable_invC t hreach
    exact Chunked.stringToIndex_totalC t L hinv s

/-- Witness for C7 at concrete fresh tables. -/
theorem claim_C7_witness :
    exFlat0.StringToIndex "a" ≠ none ∧ exChunk0.StringToIndex "a" ≠ none :=
  ⟨claim_C7_noPanic.1 exFlat0 exFlat0_reach "a",
   claim_C7_noPanic.2 exChunk0 exChunk0_reach "a"⟩

/-- Claim C3: on a fresh table, a sequence of `StringToIndex` calls on
pairwise-distinct strings returns exactly the identifiers
`0, 1, …, n-1` in order, in both implementations. -/
theorem claim_C3_density :
    (∀ (cap : Int) (lf : ℚ) (hf : String → Nat), 0 < lf → lf < 1 →
      ∀ ss : List String, ss.Nodup →
        ∃ t2, Flat.insertAll (Flat.New cap lf hf) ss =
          some (List.range ss.length, t2)) ∧
    (∀ (cap : Int) (lf : ℚ) (hf : String → Nat), 0 < lf → lf < 1 →
      ∀ ss : List String, ss.Nodup →
        ∃ t2, Chunked.insertAll (Chunked.New cap lf hf) ss =
          some (List.range ss.length, t2)) := by
  constructor
  · intro cap lf hf h0 h1 ss hnd
    have hinv := Flat.inv_new cap lf hf h0 h1
    have hnd2 : ((Flat.New cap lf hf).strings ++ ss).Nodup := by
      rw [show (Flat.New cap lf hf).strings = [] from rfl]
      simpa using hnd
    obtain ⟨t2, heq, _, _⟩ := flat_insertAll_range ss (Flat.New cap lf hf) hinv hnd2
    refine ⟨t2, ?_⟩
    rw [heq, show (Flat.New cap lf hf).strings.length = 0 from rfl,
      List.range_eq_range']
  · intro cap lf hf h0 h1 ss hnd
    have hinv := Chunked.inv_newC cap lf hf h0 h1
    obtain ⟨t2, heq, _⟩ := chunked_insertAll_range ss (Chunked.New cap lf hf) []
      hinv (by simpa using hnd)
    refine ⟨t2, ?_⟩
    rw [heq, List.range_eq_range']
    rfl

/-- Witness for C3: three distinct strings receive 0, 1, 2 on both
implementations. -/
theorem claim_C3_witness :
    (Flat.insertAll exFlat0 ["a", "b", "c"]).map Prod.fst = some [0, 1, 2] ∧
    (Chunked.insertAll exChunk0 ["a", "b", "c"]).map Prod.fst = some [0, 1, 2] := by
  constructor
  · obtain ⟨t2, heq⟩ := claim_C3_density.1 0 (mkRat 1 2) exHash exLf0 exLf1
      ["a", "b", "c"] (by decide)
    show (Flat.insertAll (Flat.New 0 (mkRat 1 2) exHash) ["a", "b", "c"]).map Prod.fst =
      some [0, 1, 2]
    rw [heq]
    rfl
  · obtain ⟨t2, heq⟩ := claim_C3_density.2 0 (mkRat 1 2) exHash exLf0 exLf1
      ["a", "b", "c"] (by decide)
    show (Chunked.insertAll (Chunked.New 0 (mkRat 1 2) exHash) ["a", "b", "c"]).map Prod.fst =
      some [0, 1, 2]
    rw [heq]
    rfl

/-- Claim C4: two distinct strings never receive the same identifier,
even when their 32-bit hashes collide (the hash function here is
arbitrary, so the statement covers forced collisions; the witness uses a
constant hash function), in both implementations. -/
theorem claim_C4_noAliasing :
    (∀ t : Flat.Intern, Flat.Reachable t → ∀ s1 s2 : String, s1 ≠ s2 →
      ∀ (id1 : Nat) (t1 : Flat.Intern), t.StringToIndex s1 = some (id1, t1) →
      ∀ (id2 : Nat) (t2 : Flat.Intern), t1.StringToIndex s2 = some (id2, t2) →
        id1 ≠ id2) ∧
    (∀ t : Chunked.Intern, Chunked.Reachable t → ∀ s1 s2 : String, s1 ≠ s2 →
      ∀ (id1 : Nat) (t1 : Chunked.Intern), t.StringToIndex s1 = some (id1, t1) →
      ∀ (id2 : Nat) (t2 : Chunked.Intern), t1.StringToIndex s2 = some (id2, t2) →
        id1 ≠ id2) := by
  constructor
  · intro t hreach s1 s2 hne id1 t1 heq1 id2 t2 heq2 hideq
    have hinv := Flat.reachable_inv t hreach
    obtain ⟨hinv1, _, _, _, hget1, _⟩ := Flat.stringToIndex_spec t hinv s1 id1 t1 heq1
    obtain ⟨_, _, _, _, hget2, hcases⟩ :=
      Flat.stringToIndex_spec t1 hinv1 s2 id2 t2 heq2
    have hget1b : t2.strings[id1]? = some s1 := by
      rcases hcases with ⟨_, hstr, _⟩ | ⟨_, _, hstr⟩
      · rw [hstr]
        exact hget1
      · rw [hstr, List.getElem?_append_left (List.getElem?_eq_some.mp hget1).1]
        exact hget1
    rw [hideq, hget2] at hget1b
    exact hne (Option.some_injective _ hget1b).symm
  · intro t hreach s1 s2 hne id1 t1 heq1 id2 t2 heq2 hideq
    obtain ⟨L, hinv⟩ := Chunked.reachable_invC t hreach
    obtain ⟨L1, hinv1, _, _, _, hget1, _⟩ :=
      Chunked.stringToIndex_specC t L hinv s1 id1 t1 heq1
    obtain ⟨L2, _, _, _, _, hget2, hcases⟩ :=
      Chunked.stringToIndex_specC t1 L1 hinv1 s2 id2 t2 heq2
    have hget1b : L2[id1]? = some s1 := by
      rcases hcases with ⟨_, hstr, _⟩ | ⟨_, _, hstr, _⟩
      · rw [hstr]
        exact hget1
      · rw [hstr, List.getElem?_append_left (List.getElem?_eq_some.mp hget1).1]
        exact hget1
    rw [hideq, hget2] at hget1b
    exact hne (Option.some_injective _ hget1b).symm

/-- Witness for C4: `"a"` and `"b"` collide under the constant hash yet
receive identifiers 0 and 1 on both implementations. -/
theorem claim_C4_witness : (0 : Nat) ≠ 1 ∧ (0 : Nat) ≠ 1 :=
  ⟨claim_C4_noAliasing.1 exFlat0 exFlat0_reach "a" "b" (by decide)
      0 exFlat1 exFlat1_eq 1 exFlat2 exFlat2_eq,
   claim_C4_noAliasing.2 exChunk0 exChunk0_reach "a" "b" (by decide)
      0 exChunk1 exChunk1_eq 1 exChunk2 exChunk2_eq⟩

/-- Claim C5: growth never loses, duplicates or corrupts stored strings:
after any further sequence of calls (including any number of
capacity-doubling resizes) every previously issued identifier still
resolves to its original string, and the slot-array capacity only ever
increases, in both implementations. -/
theorem claim_C5_growthPreserves :
    (∀ t : Flat.Intern, Flat.Reachable t → ∀ t2 : Flat.Intern, Flat.Steps t t2 →
      (∀ id : Nat, id < t.Len →
        t2.IndexToString (id : Int) = t.IndexToString (id : Int)) ∧
      t.Cap ≤ t2.Cap) ∧
    (∀ t : Chunked.Intern, Chunked.Reachable t →
      ∀ t2 : Chunked.Intern, Chunked.Steps t t2 →
      (∀ id : Nat, id < t.count →
        t2.IndexToString (id : Int) = t.IndexToString (id : Int)) ∧
      t.Cap ≤ t2.Cap) := by
  constructor
  · intro t hreach t2 hsteps
    have hinv := Flat.reachable_inv t hreach
    obtain ⟨hinv2, ⟨ext, hext⟩, hsz⟩ := Flat.steps_ext t t2 hinv hsteps
    refine ⟨?_, hsz⟩
    intro id hid
    have hid2 : id < t.strings.length := hid
    rw [flat_indexToString_nat, flat_indexToString_nat, hext,
      List.getElem?_append_left hid2]
  · intro t hreach t2 hsteps
    obtain ⟨L, hinv⟩ := Chunked.reachable_invC t hreach
    obtain ⟨ext, hinv2, hsz⟩ := Chunked.steps_extC t t2 L hinv hsteps
    refine ⟨?_, hsz⟩
    intro id hid
    have hidL : id < L.length := by
      rw [← hinv.cnt]
      exact hid
    obtain ⟨s, hs⟩ : ∃ s, L[id]? = some s :=
      ⟨L.get ⟨id, hidL⟩, by rw [List.getElem?_eq_some]; exact ⟨hidL, rfl⟩⟩
    rw [hinv.look id s hs, hinv2.look id s
      (by rw [List.getElem?_append_left hidL]; exact hs)]

/-- Witness for C5 after one further insertion on both implementations. -/
theorem claim_C5_witness :
    exFlat2.IndexToString 0 = exFlat1.IndexToString 0 ∧ exFlat1.Cap ≤ exFlat2.Cap ∧
    exChunk2.IndexToString 0 = exChunk1.IndexToString 0 ∧
    exChunk1.Cap ≤ exChunk2.Cap := by
  have h1 := claim_C5_growthPreserves.1 exFlat1 exFlat1_reach exFlat2
    (Flat.Steps.tail exFlat1 exFlat1 exFlat2 "b" 1 (Flat.Steps.refl exFlat1) exFlat2_eq)
  have h2 := claim_C5_growthPreserves.2 exChunk1 exChunk1_reach exChunk2
    (Chunked.Steps.tail exChunk1 exChunk1 exChunk2 "b" 1
      (Chunked.Steps.refl exChunk1) exChunk2_eq)
  exact ⟨h1.1 0 (by decide), h1.2, h2.1 0 (by decide), h2.2⟩

/-- Claim C6 (refuted by the chunked code): `Len` is documented as the
number of strings stored, and the claim expects `Len = n` after `n`
distinct insertions.  The flat implementation satisfies this (2 after
inserting `"a"` and `"b"`), but the chunked implementation returns
`len(i.strings)` — the number of 1024-string chunks — which is 1. -/
theorem claim_C6_len_bug :
    (Chunked.insertAll exChunk0 ["a", "b"]).map (fun p => p.2.Len) = some 1 ∧
    (Flat.insertAll exFlat0 ["a", "b"]).map (fun p => p.2.Len) = some 2 :=
  ⟨rfl, rfl⟩

/-- Claim C8: construction rounds the requested capacity up — below 16 to
exactly 16, otherwise to the next power of two (`cap ≤ Cap < 2*cap`), with
the four concrete examples of the claim, in both implementations. -/
theorem claim_C8_capRounding :
    (∀ (cap : Int) (lf : ℚ) (hf : String → Nat), cap < 16 →
      (Flat.New cap lf hf).Cap = 16 ∧ (Chunked.New cap lf hf).Cap = 16) ∧
    (∀ (cap : Int) (lf : ℚ) (hf : String → Nat), 16 ≤ cap →
      (∃ k, (Flat.New cap lf hf).Cap = 2 ^ k) ∧
      cap ≤ ((Flat.New cap lf hf).Cap : Int) ∧
      ((Flat.New cap lf hf).Cap : Int) < 2 * cap ∧
      (Chunked.New cap lf hf).Cap = (Flat.New cap lf hf).Cap) ∧
    ((Flat.New 0 (mkRat 7 10) exHash).Cap = 16 ∧
      (Flat.New 5 (mkRat 7 10) exHash).Cap = 16 ∧
      (Flat.New 63 (mkRat 7 10) exHash).Cap = 64 ∧
      (Flat.New 65 (mkRat 7 10) exHash).Cap = 128 ∧
      (Chunked.New 0 (mkRat 7 10) exHash).Cap = 16 ∧
      (Chunked.New 5 (mkRat 7 10) exHash).Cap = 16 ∧
      (Chunked.New 63 (mkRat 7 10) exHash).Cap = 64 ∧
      (Chunked.New 65 (mkRat 7 10) exHash).Cap = 128) := by
  refine ⟨?_, ?_, ?_⟩
  · intro cap lf hf h
    have hcap : (Flat.New cap lf hf).Cap = roundCap cap := Array.size_mkArray _ _
    have hcap2 : (Chunked.New cap lf hf).Cap = roundCap cap := Array.size_mkArray _ _
    rw [hcap, hcap2, roundCap_of_lt cap h]
    exact ⟨rfl, rfl⟩
  · intro cap lf hf h
    have hcap : (Flat.New cap lf hf).Cap = roundCap cap := Array.size_mkArray _ _
    have hcap2 : (Chunked.New cap lf hf).Cap = roundCap cap := Array.size_mkArray _ _
    obtain ⟨hle, hlt⟩ := roundCap_ge_self cap h
    rw [hcap, hcap2]
    exact ⟨roundCap_pow2 cap, hle, hlt, rfl⟩
  · refine ⟨?_, ?_, ?_, ?_, ?_, ?_, ?_, ?_⟩ <;> rfl

/-- Witness for C8 at concrete capacities 5 and 63. -/
theorem claim_C8_witness :
    (Flat.New 5 (mkRat 7 10) exHash).Cap = 16 ∧
      (63 : Int) ≤ ((Flat.New 63 (mkRat 7 10) exHash).Cap : Int) :=
  ⟨(claim_C8_capRounding.1 5 (mkRat 7 10) exHash (by decide)).1,
   (claim_C8_capRounding.2.1 63 (mkRat 7 10) exHash (by decide)).2.1⟩

/-- Claim C9 counterexample: in the chunked implementation, after one
insertion (`count = 1`) the never-issued identifiers `1` and `-1` do not
fault — `IndexToString` silently returns the chunk's zero value `""`,
contradicting the claim that out-of-range access never returns a
string. -/
theorem claim_C9_counterexample :
    exChunk1.count = 1 ∧ exChunk1.IndexToString 1 = some "" ∧
      exChunk1.IndexToString (-1) = some "" :=
  ⟨rfl, rfl, rfl⟩

/-- Claim C9 as amended: the flat implementation faults (returns no
string) on every out-of-range identifier — negative or at least `Len` —
while the chunked implementation faults exactly when the identifier's
chunk index `index/1024` (truncated toward zero) falls outside the
allocated chunks; an out-of-range identifier that lands inside an
allocated chunk silently reads the chunk instead. -/
theorem claim_C9_amended :
    (∀ (t : Flat.Intern) (index : Int),
      index < 0 ∨ (t.Len : Int) ≤ index → t.IndexToString index = none) ∧
    (∀ (t : Chunked.Intern) (index : Int),
      Int.tdiv index 1024 < 0 ∨ (t.Len : Int) ≤ Int.tdiv index 1024 →
        t.IndexToString index = none) := by
  constructor
  · intro t index h
    unfold Flat.Intern.IndexToString
    rcases h with h | h
    · rw [if_neg (by omega)]
    · by_cases h0 : 0 ≤ index
      · rw [if_pos h0]
        rw [List.getElem?_eq_none_iff]
        have h2 : (t.strings.length : Int) ≤ index := h
        omega
      · rw [if_neg h0]
  · intro t index h
    simp only [Chunked.Intern.IndexToString]
    rcases h with h | h
    · rw [if_neg (by omega)]
    · by_cases h0 : 0 ≤ Int.tdiv index 1024
      · rw [if_pos h0]
        have hnone : t.strings[(Int.tdiv index 1024).toNat]? = none := by
          rw [List.getElem?_eq_none_iff]
          have h2 : (t.strings.length : Int) ≤ Int.tdiv index 1024 := h
          omega
        rw [hnone]
        rfl
      · rw [if_neg h0]

/-- Witness for the amended C9 at concrete out-of-range identifiers. -/
theorem claim_C9_witness :
    exFlat1.IndexToString 5 = none ∧ exChunk1.IndexToString 2048 = none :=
  ⟨claim_C9_amended.1 exFlat1 5 (Or.inr (by decide)),
   claim_C9_amended.2 exChunk1 2048 (Or.inr (by decide))⟩

/-- Claim C10: a `StringToIndex` call on an already-present string leaves
the stored strings and their count unchanged, in both implementations —
yet, because the resize check runs unconditionally before the lookup,
such a hit call can still double `Cap` (shown on `exGrow1`, load factor
1/16) and can increment the clash counter (shown on `exFlat2`, where
`"a"` and `"b"` collide). -/
theorem claim_C10_hitFrame :
    (∀ t : Flat.Intern, Flat.Reachable t → ∀ s : String, s ∈ t.strings →
      ∀ (id : Nat) (t2 : Flat.Intern), t.StringToIndex s = some (id, t2) →
        t2.strings = t.strings ∧ t2.Len = t.Len) ∧
    (∀ t : Chunked.Intern, Chunked.Reachable t → ∀ s : String,
      (∃ i : Nat, i < t.count ∧ t.IndexToString (i : Int) = some s) →
      ∀ (id : Nat) (t2 : Chunked.Intern), t.StringToIndex s = some (id, t2) →
        t2.count = t.count ∧ t2.strings = t.strings) ∧
    (exGrow1.StringToIndex "a" = some (0, exGrow2) ∧
      exGrow2.Cap = 2 * exGrow1.Cap ∧ exGrow2.strings = exGrow1.strings) ∧
    (exFlat2.StringToIndex "b" = some (1, exFlat3) ∧
      exFlat3.Clashes = exFlat2.Clashes + 1 ∧ exFlat3.strings = exFlat2.strings) := by
  refine ⟨?_, ?_, ⟨exGrow2_eq, rfl, rfl⟩, ⟨exFlat3_eq, rfl, rfl⟩⟩
  · intro t hreach s hmem id t2 heq
    have hinv := Flat.reachable_inv t hreach
    obtain ⟨_, _, _, _, _, hcases⟩ := Flat.stringToIndex_spec t hinv s id t2 heq
    rcases hcases with ⟨_, hstr, _⟩ | ⟨hnot, _, _⟩
    · refine ⟨hstr, ?_⟩
      show t2.strings.length = t.strings.length
      rw [hstr]
    · exact absurd hmem hnot
  · intro t hreach s hex id t2 heq
    obtain ⟨L, hinv⟩ := Chunked.reachable_invC t hreach
    obtain ⟨i, hi, hival⟩ := hex
    have hiL : i < L.length := by
      rw [← hinv.cnt]
      exact hi
    obtain ⟨s2, hs2⟩ : ∃ s2, L[i]? = some s2 :=
      ⟨L.get ⟨i, hiL⟩, by rw [List.getElem?_eq_some]; exact ⟨hiL, rfl⟩⟩
    have hseq : s2 = s :=
      Option.some_injective _ (((hinv.look i s2 hs2).symm.trans hival))
    rw [hseq] at hs2
    have hmem : s ∈ L := List.mem_iff_getElem?.mpr ⟨i, hs2⟩
    obtain ⟨L2, _, _, _, _, _, hcases⟩ :=
      Chunked.stringToIndex_specC t L hinv s id t2 heq
    rcases hcases with ⟨_, _, hcnt, hstr, _⟩ | ⟨hnot, _, _, _⟩
    · exact ⟨hcnt, hstr⟩
    · exact absurd hmem hnot

/-- Witness for C10's universally quantified frame parts at concrete hit
calls on both implementations. -/
theorem claim_C10_witness :
    exFlat1.strings = exFlat1.strings ∧ exChunk1.count = exChunk1.count :=
  ⟨(claim_C10_hitFrame.1 exFlat1 exFlat1_reach "a" (by decide) 0 exFlat1 rfl).1,
   (claim_C10_hitFrame.2.1 exChunk1 exChunk1_reach "a" ⟨0, by decide, rfl⟩
      0 exChunk1 rfl).1⟩
